import Mathlib

/-!
Verification development for the MOTH tile-indexed annotation engine
(`src/mothi/tiling_projects.py`, class `QuPathTilingProject`).

The Python code delegates all geometric primitives to the shapely library
(polygon intersection, buffering, STRtree queries, ...), to numpy and to
OpenCV.  We embed the code shallowly: the control flow of each method of
`QuPathTilingProject` is translated into an executable Lean function that is
parametric in a `Shapely` interface bundling the geometric operations the
code calls together with their documented semantics (stated over a
point-set denotation `pts`).  Failures that Python raises as exceptions
(KeyError on a missing class, IndexError from `np.array([]).transpose()[0]`,
AttributeError on a `None` path class, ValueError from `np.zeros` with a
negative shape) are modelled by returning `none`.

A concrete executable instance `CShapely` (finite rational point sets)
is provided so that every theorem can be exercised on concrete inputs.
-/

namespace MOTH

/-- Planar points in level-0 slide coordinates (rational, since the mask
rasterizer scales geometry by `1 / 2 ^ downsample_level`). -/
abbrev Pt : Type := ℚ × ℚ

/-- Integer pixel coordinates `(x, y)` as used by `cv2.fillPoly`. -/
abbrev Px : Type := ℤ × ℤ

/-- The geometric interface the Python code consumes, with the documented
semantics of the shapely operations it calls, stated over a point-set
denotation `pts`.  `rasterize` jointly models `mothi.utils._round_polygon`
(whose source file is not part of `src/`; modelled from the spec: it rounds
ring vertices to integer pixel coordinates producing a fillable exterior
outline plus hole outlines) composed with `cv2.fillPoly`: it yields the set
of pixels the fill paints for the exterior ring and for each interior
ring. -/
structure Shapely (G : Type) where
  /-- point-set denotation of a geometry -/
  pts : G → Finset Pt
  /-- `Geometry.is_empty` -/
  isEmptyG : G → Bool
  /-- `isinstance(g, Polygon)` -/
  isPolygon : G → Bool
  /-- `isinstance(g, MultiPolygon) or isinstance(g, GeometryCollection)` -/
  isMultiPart : G → Bool
  /-- `.geoms` of a multi-part geometry -/
  geoms : G → List G
  /-- `a.intersection(b)` -/
  inter : G → G → G
  /-- `Polygon(...)` built from the four tile corners at `location`, `size` -/
  mkRect : ℤ × ℤ → ℕ × ℕ → G
  /-- `shapely.affinity.translate(g, a, b)` -/
  translateG : G → ℚ → ℚ → G
  /-- `shapely.affinity.scale(g, xfact, yfact, origin=(0,0))` -/
  scaleG : G → ℚ → ℚ → G
  /-- `Polygon(g.exterior).area`, the sort key of the single-label rasterizer -/
  extArea : G → ℚ
  /-- exterior fill pixels and hole fill pixels of the rounded geometry
  (see the structure doc comment) -/
  rasterize : G → Finset Px × List (Finset Px)
  /-- `g.buffer(d)` (dilation for `0 ≤ d`, erosion for `d < 0`) -/
  buffer : G → ℤ → G
  /-- `a.intersects(b)` -/
  intersects : G → G → Bool
  /-- `shapely.ops.unary_union` of a list of geometries -/
  unionG : List G → G
  /-- `STRtree.query`: returns the stored items whose bounding box
  intersects the query geometry's bounding box — a sublist of the stored
  items that contains at least every item actually intersecting the query
  geometry.  Items are stored with their build position so that the
  identity-keyed side table `class_by_id` can be modelled positionally. -/
  query : List (ℕ × (G × String)) → G → List (ℕ × (G × String))
  /-- the intersection of two geometries has exactly the common points -/
  pts_inter : ∀ a b, pts (inter a b) = pts a ∩ pts b
  /-- a geometry is empty iff it has no points -/
  isEmpty_iff : ∀ g, isEmptyG g = true ↔ pts g = ∅
  /-- each member of a multi-part geometry is contained in the whole -/
  geoms_sub : ∀ m g, g ∈ geoms m → pts g ⊆ pts m
  /-- translation moves every point -/
  pts_translate : ∀ g a b,
    pts (translateG g a b) = (pts g).image (fun p => (p.1 + a, p.2 + b))
  /-- scaling about the origin multiplies every point -/
  pts_scale : ∀ g fx fy,
    pts (scaleG g fx fy) = (pts g).image (fun p => (fx * p.1, fy * p.2))
  /-- buffering outward by a non-negative distance only grows a geometry -/
  buffer_incl : ∀ g d, (0:ℤ) ≤ d → pts g ⊆ pts (buffer g d)
  /-- `intersects` decides whether the point sets meet -/
  intersects_iff : ∀ a b, intersects a b = true ↔ (pts a ∩ pts b).Nonempty
  /-- a tree query returns a sublist of the stored items -/
  query_sublist : ∀ l q, (query l q).Sublist l
  /-- a tree query misses no stored item that meets the query geometry -/
  query_complete : ∀ l q e, e ∈ l → (pts e.2.1 ∩ pts q).Nonempty → e ∈ query l q

/-- A simple (single-part) concrete geometry: a polygon-or-degenerate flag
and a finite rational point set. -/
structure CPrim where
  poly : Bool
  ps : Finset Pt
deriving DecidableEq

/-- Concrete executable geometry: either a simple geometry or a collection
of simple parts (MultiPolygon / GeometryCollection). -/
inductive CGeom where
  | prim (p : CPrim)
  | coll (parts : List CPrim)
deriving DecidableEq

namespace CGeom

/-- Point-set denotation of a concrete geometry. -/
def cpts : CGeom → Finset Pt
  | .prim p => p.ps
  | .coll l => l.foldr (fun p acc => p.ps ∪ acc) ∅

/-- Concrete intersection: pointwise intersection, preserving multi-part
structure of the left operand; a part counts as a polygon when it retains
at least three points (degenerate overlaps behave like points/lines). -/
def cInter : CGeom → CGeom → CGeom
  | .prim p, b => .prim ⟨3 ≤ (p.ps ∩ cpts b).card, p.ps ∩ cpts b⟩
  | .coll l, b => .coll (l.map fun p => ⟨3 ≤ (p.ps ∩ cpts b).card, p.ps ∩ cpts b⟩)

/-- Map a function over every point of a concrete geometry. -/
def cMap (f : Pt → Pt) : CGeom → CGeom
  | .prim p => .prim ⟨p.poly, p.ps.image f⟩
  | .coll l => .coll (l.map fun p => ⟨p.poly, p.ps.image f⟩)

/-- Standard rounding of a rational to the nearest integer
(`⌊q + 1/2⌋`, written with floor division so it evaluates). -/
def roundQ (q : ℚ) : ℤ :=
  Int.fdiv (2 * q.num + (q.den : ℤ)) (2 * (q.den : ℤ))

/-- Rational addition written with `Rat.divInt` so that it evaluates
under kernel reduction (`Rat.add` is `@[irreducible]`); equal to `a + b`
(`addQ_eq`, proved inline where needed). -/
def addQ (a b : ℚ) : ℚ :=
  Rat.divInt (a.num * b.den + b.num * a.den) (a.den * b.den)

/-- Rational multiplication written with `Rat.divInt`; equal to `a * b`. -/
def mulQ (a b : ℚ) : ℚ :=
  Rat.divInt (a.num * b.num) (a.den * b.den)

/-- Concrete buffer: Minkowski dilation by the integer square `[-d, d]²`
for `0 ≤ d`; erosion is not needed by any contract and keeps the geometry. -/
def cBuffer (g : CGeom) (d : ℤ) : CGeom :=
  if 0 ≤ d then
    .prim ⟨true, ((cpts g) ×ˢ ((Finset.Icc (-d) d) ×ˢ (Finset.Icc (-d) d))).image
      (fun pq => (addQ pq.1.1 (pq.2.1 : ℚ), addQ pq.1.2 (pq.2.2 : ℚ)))⟩
  else g

/-- Concrete axis-aligned tile rectangle: its lattice points. -/
def cRect (loc : ℤ × ℤ) (size : ℕ × ℕ) : CGeom :=
  .prim ⟨true, ((Finset.Icc loc.1 (loc.1 + size.1)) ×ˢ
      (Finset.Icc loc.2 (loc.2 + size.2))).image
    (fun p => ((p.1 : ℚ), (p.2 : ℚ)))⟩

/-- Concrete union of a list of geometries. -/
def cUnion (l : List CGeom) : CGeom :=
  .prim ⟨true, l.foldr (fun g acc => cpts g ∪ acc) ∅⟩

end CGeom

open CGeom in
/-- The concrete executable instance of the shapely interface. -/
def CShapely : Shapely CGeom where
  pts := cpts
  isEmptyG g := decide (cpts g = ∅)
  isPolygon
    | .prim p => p.poly
    | .coll _ => false
  isMultiPart
    | .prim _ => false
    | .coll _ => true
  geoms
    | .prim _ => []
    | .coll l => l.map .prim
  inter := cInter
  mkRect := cRect
  translateG g a b := cMap (fun p => (addQ p.1 a, addQ p.2 b)) g
  scaleG g fx fy := cMap (fun p => (mulQ fx p.1, mulQ fy p.2)) g
  extArea g := ((cpts g).card : ℚ)
  rasterize g := ((cpts g).image (fun p => (roundQ p.1, roundQ p.2)), [])
  buffer := cBuffer
  intersects a b := decide ((cpts a ∩ cpts b).Nonempty)
  unionG := cUnion
  query l q := l.filter (fun e => decide ((cpts e.2.1 ∩ cpts q).Nonempty))
  pts_inter a b := by
    cases a with
    | prim p => rfl
    | coll l =>
      simp only [cInter, cpts]
      induction l with
      | nil => simp
      | cons p tl ih =>
        simp only [List.map_cons, List.foldr_cons, ih, Finset.union_inter_distrib_right]
  isEmpty_iff g := decide_eq_true_iff
  geoms_sub m g hg := by
    cases m with
    | prim p => cases hg
    | coll l =>
      simp only at hg
      rcases List.mem_map.mp hg with ⟨p, hp, rfl⟩
      clear hg
      intro x hx
      simp only [cpts]
      induction l with
      | nil => cases hp
      | cons q tl ih =>
        rcases List.mem_cons.mp hp with rfl | h'
        · exact Finset.mem_union.mpr (Or.inl hx)
        · exact Finset.mem_union.mpr (Or.inr (ih h'))
  pts_translate g a b := by
    have haddQ : ∀ u v : ℚ, addQ u v = u + v := by
      intro u v
      have hnum : ∀ w : ℚ, (w.num : ℚ) = w * w.den := fun w =>
        (div_eq_iff (Nat.cast_ne_zero.mpr w.den_nz)).mp (Rat.num_div_den w)
      unfold addQ
      rw [Rat.divInt_eq_div]
      push_cast
      rw [div_eq_iff (mul_ne_zero (Nat.cast_ne_zero.mpr u.den_nz)
        (Nat.cast_ne_zero.mpr v.den_nz)), hnum u, hnum v]
      ring
    have hfun : (fun p : Pt => (addQ p.1 a, addQ p.2 b))
        = (fun p : Pt => (p.1 + a, p.2 + b)) := by
      funext p
      rw [haddQ, haddQ]
    show cpts (cMap (fun p => (addQ p.1 a, addQ p.2 b)) g) = _
    rw [hfun]
    cases g with
    | prim p => rfl
    | coll l =>
      simp only [cMap, cpts]
      induction l with
      | nil => simp
      | cons p tl ih =>
        simp only [List.map_cons, List.foldr_cons, ih, Finset.image_union]
  pts_scale g fx fy := by
    have hmulQ : ∀ u v : ℚ, mulQ u v = u * v := by
      intro u v
      have hnum : ∀ w : ℚ, (w.num : ℚ) = w * w.den := fun w =>
        (div_eq_iff (Nat.cast_ne_zero.mpr w.den_nz)).mp (Rat.num_div_den w)
      unfold mulQ
      rw [Rat.divInt_eq_div]
      push_cast
      rw [div_eq_iff (mul_ne_zero (Nat.cast_ne_zero.mpr u.den_nz)
        (Nat.cast_ne_zero.mpr v.den_nz)), hnum u, hnum v]
      ring
    have hfun : (fun p : Pt => (mulQ fx p.1, mulQ fy p.2))
        = (fun p : Pt => (fx * p.1, fy * p.2)) := by
      funext p
      rw [hmulQ, hmulQ]
    show cpts (cMap (fun p => (mulQ fx p.1, mulQ fy p.2)) g) = _
    rw [hfun]
    cases g with
    | prim p => rfl
    | coll l =>
      simp only [cMap, cpts]
      induction l with
      | nil => simp
      | cons p tl ih =>
        simp only [List.map_cons, List.foldr_cons, ih, Finset.image_union]
  buffer_incl g d hd := by
    intro x hx
    have haddQ : ∀ u v : ℚ, addQ u v = u + v := by
      intro u v
      have hnum : ∀ w : ℚ, (w.num : ℚ) = w * w.den := fun w =>
        (div_eq_iff (Nat.cast_ne_zero.mpr w.den_nz)).mp (Rat.num_div_den w)
      unfold addQ
      rw [Rat.divInt_eq_div]
      push_cast
      rw [div_eq_iff (mul_ne_zero (Nat.cast_ne_zero.mpr u.den_nz)
        (Nat.cast_ne_zero.mpr v.den_nz)), hnum u, hnum v]
      ring
    have h0 : ((0:ℤ), (0:ℤ)) ∈ (Finset.Icc (-d) d) ×ˢ (Finset.Icc (-d) d) := by
      rw [Finset.mem_product]
      constructor <;> (rw [Finset.mem_Icc]; omega)
    have hmem : (x, ((0:ℤ), (0:ℤ))) ∈
        (cpts g) ×ˢ ((Finset.Icc (-d) d) ×ˢ (Finset.Icc (-d) d)) :=
      Finset.mem_product.mpr ⟨hx, h0⟩
    simp only [cBuffer, if_pos hd, cpts]
    exact Finset.mem_image.mpr ⟨_, hmem, by simp [haddQ]⟩
  intersects_iff a b := decide_eq_true_iff
  query_sublist l q := List.filter_sublist l
  query_complete l q e he hm := List.mem_filter.mpr ⟨he, decide_eq_true hm⟩

/-! ## The project data model

`QuPathTilingProject` state, as the translated methods observe it:
per-image annotation lists (`self.images[i].hierarchy.annotations`), the
ordered class catalog (`self.path_classes`, identified by their string
ids), and the per-image cache `self.img_annot_dict` holding the STRtree
contents together with the positional/class side table `class_by_id`. -/

/-- A QuPath annotation: a roi geometry and an optional path class,
identified by its id string (`annot.path_class` may be `None`). -/
structure Annot (G : Type) where
  roi : G
  path_class : Option String
deriving DecidableEq

/-- Mutable state of a `QuPathTilingProject`. -/
structure ProjState (G : Type) where
  /-- `self.images[i].hierarchy.annotations` for each image id `i` -/
  images : List (List (Annot G))
  /-- ids of `self.path_classes`, in catalog order -/
  path_classes : List String
  /-- `self.img_annot_dict`: image id ↦ tree contents with classes -/
  img_annot_dict : List (ℕ × List (G × String))
deriving DecidableEq

/-- Dictionary lookup in `img_annot_dict`. -/
def lookupCache {G : Type} (c : List (ℕ × List (G × String))) (img : ℕ) :
    Option (List (G × String)) :=
  (c.find? (fun e => e.1 == img)).map (·.2)

/-- Dictionary assignment `self.img_annot_dict[img_id] = entries`. -/
def setCache {G : Type} (c : List (ℕ × List (G × String))) (img : ℕ)
    (entries : List (G × String)) : List (ℕ × List (G × String)) :=
  (img, entries) :: c

/-- `self._inverse_class_dict[s]`: the dict comprehension
`{value.id: key for key, value in self._class_dict.items()}` maps a class id
to its catalog position; a duplicated id keeps the last position.  `none`
models the KeyError raised for an id not in the catalog. -/
def inverse_class_dict (classes : List String) (s : String) : Option ℕ :=
  (List.range classes.length).foldl
    (fun acc i => if classes.get? i = some s then some i else acc) none

/-- An element of a `class_filter` list: either a class id string or a
catalog index (callers may mix both forms). -/
abbrev ClassKey : Type := String ⊕ ℕ

/-- Executable membership test in a `class_filter` list (`in` in Python). -/
def keyMem (k : ClassKey) (fs : List ClassKey) : Bool :=
  fs.any (fun x => decide (x = k))

/-- `filter_bool = (not class_filter) or (annot_class in class_filter) or
(self._inverse_class_dict[annot_class] in class_filter)`.  Python truthiness
makes an absent (`None`) or empty filter pass everything; the inverse
lookup is only reached — and can only raise KeyError (`none`) — when the
filter is non-empty and the id membership test failed. -/
def filter_bool (classes : List String) (filt : Option (List ClassKey))
    (c : String) : Option Bool :=
  match filt with
  | none => some true
  | some [] => some true
  | some fs =>
    if keyMem (Sum.inl c) fs then some true
    else (inverse_class_dict classes c).map
      (fun i => keyMem (Sum.inr i) fs)

/-- Fragments emitted for one non-empty intersection (lines 133–139 and
156–162 of the source): a multi-part result contributes its simple-polygon
members only, while any other geometry — including a non-polygonal
degenerate one — is appended whole. -/
def emit_frags {G : Type} (S : Shapely G) (c : String) (inter : G) :
    List (String × G) :=
  if S.isMultiPart inter then
    (S.geoms inter).filterMap (fun g => if S.isPolygon g then some (c, g) else none)
  else [(c, inter)]

/-- Processing of one candidate `(roi, class)` against the tile polygon:
skip empty intersections, evaluate the class filter (which may raise), and
append the emitted fragments. -/
def cand_step {G : Type} (S : Shapely G) (classes : List String)
    (filt : Option (List ClassKey)) (tile : G)
    (res : List (String × G)) (e : G × String) : Option (List (String × G)) :=
  let i := S.inter e.1 tile
  if S.isEmptyG i then some res
  else (filter_bool classes filt e.2).map
    (fun fb => if fb then res ++ emit_frags S e.2 i else res)

/-- One iteration of the uncached branch of `get_tile_annot` (lines
143–162): a `None` path class is skipped entirely; otherwise the candidate
pair is recorded for the cache being built and processed like a cached
candidate. -/
def cold_step {G : Type} (S : Shapely G) (classes : List String)
    (filt : Option (List ClassKey)) (tile : G)
    (acc : List (G × String) × List (String × G)) (a : Annot G) :
    Option (List (G × String) × List (String × G)) :=
  match a.path_class with
  | none => some acc
  | some c => (cand_step S classes filt tile acc.2 (a.roi, c)).map
      (fun r => (acc.1 ++ [(a.roi, c)], r))

/-- `QuPathTilingProject.get_tile_annot` (lines 95–169).  Returns the tile
intersections and the possibly updated state, or `none` when Python would
raise: a missing image id, a KeyError from the class filter's inverse
lookup, or — in the uncached branch — the IndexError from
`np.array(img_ann_list, dtype=object).transpose()[0]` when the list of
class-bearing annotations is empty. -/
def get_tile_annot {G : Type} (S : Shapely G) (st : ProjState G) (img : ℕ)
    (location : ℤ × ℤ) (size : ℕ × ℕ) (class_filter : Option (List ClassKey)) :
    Option (List (String × G) × ProjState G) :=
  match st.images.get? img with
  | none => none
  | some annots =>
    let tile := S.mkRect location size
    match lookupCache st.img_annot_dict img with
    | some entries =>
      ((S.query entries.enum tile).foldlM
          (fun r e => cand_step S st.path_classes class_filter tile r e.2) []).map
        (fun res => (res, st))
    | none =>
      (annots.foldlM (cold_step S st.path_classes class_filter tile) ([], [])).bind
        (fun acc =>
          if acc.1.isEmpty then none
          else some (acc.2,
            { st with img_annot_dict := setCache st.img_annot_dict img acc.1 }))

/-- `QuPathTilingProject.update_img_annot_dict` (lines 52–67).  `none`
models the AttributeError from `annot.path_class.id` on an unclassified
annotation and the IndexError from `np.array([]).transpose()[0]` on an
image with no annotations. -/
def update_img_annot_dict {G : Type} (st : ProjState G) (img : ℕ) :
    Option (ProjState G) :=
  (st.images.get? img).bind (fun annots =>
    (annots.mapM (fun (a : Annot G) => a.path_class.map (fun c => (a.roi, c)))).bind
      (fun entries =>
        if entries.isEmpty then none
        else some { st with img_annot_dict := setCache st.img_annot_dict img entries }))

/-! ## The mask rasterizer (`get_tile_annot_mask`, lines 172–233) -/

/-- A pixel grid, row-major: `np.zeros((height, width), dtype=np.uint8)`. -/
def zeroGrid (h w : ℕ) : List (List ℕ) :=
  List.replicate h (List.replicate w 0)

/-- `cv2.fillPoly(grid, region, v)`: set every pixel `(x, y)` of `region`
that lies on the grid to `v` (stored in a `uint8` array, hence mod 256). -/
def fillGrid (g : List (List ℕ)) (r : Finset Px) (v : ℕ) : List (List ℕ) :=
  g.enum.map (fun row => row.2.enum.map
    (fun cell => if ((cell.1 : ℤ), (row.1 : ℤ)) ∈ r then v % 256 else cell.2))

/-- Lines 219–221: `shapely.affinity.translate(intersection, -x, -y)`
followed by `shapely.affinity.scale(·, 1/2^L, 1/2^L, origin=(0,0))`.
The scale factor `1 / 2 ^ downsample_level` is written `Rat.divInt` so
that it evaluates under kernel reduction. -/
def mask_frag_geom {G : Type} (S : Shapely G) (location : ℤ × ℤ) (L : ℕ)
    (g : G) : G :=
  S.scaleG (S.translateG g (-(location.1 : ℚ)) (-(location.2 : ℚ)))
    (Rat.divInt 1 (2 ^ L)) (Rat.divInt 1 (2 ^ L))

/-- numpy indexing `a[i]` on the first axis of length `n`: valid for
`-n ≤ i < n`, with negative indices wrapping to `n + i`; out of range
raises IndexError (`none`). -/
def npIndex (n : ℕ) (i : ℤ) : Option ℕ :=
  if 0 ≤ i ∧ i < (n : ℤ) then some i.toNat
  else if 0 ≤ i + (n : ℤ) ∧ i < 0 then some (i + (n : ℤ)).toNat
  else none

/-- Fill the exterior region with `v`, then re-fill every hole region
with 0 (lines 226–231, shared by both modes). -/
def paintFrag (grid : List (List ℕ)) (r : Finset Px × List (Finset Px))
    (v : ℕ) : List (List ℕ) :=
  r.2.foldl (fun m hole => fillGrid m hole 0) (fillGrid grid r.1 v)

/-- One single-label fill iteration (lines 214–231, `multilabel = False`):
look up the class index (KeyError possible), transform and round the
fragment, fill exterior with the index and holes with background. -/
def single_label_step {G : Type} (S : Shapely G) (classes : List String)
    (location : ℤ × ℤ) (L : ℕ)
    (mask : List (List ℕ)) (p : String × G) : Option (List (List ℕ)) :=
  (inverse_class_dict classes p.1).map (fun idx =>
    paintFrag mask (S.rasterize (mask_frag_geom S location L p.2)) idx)

/-- One multilabel fill iteration (lines 214–227, `multilabel = True`):
the channel is `class_num - 1` (background has no channel), indexed into
the `n`-channel volume with numpy semantics — so local index 0 yields
channel `-1`, which wraps to the final channel instead of erroring. -/
def multi_label_step {G : Type} (S : Shapely G) (classes : List String)
    (location : ℤ × ℤ) (L : ℕ) (n : ℕ)
    (mask : List (List (List ℕ))) (p : String × G) :
    Option (List (List (List ℕ))) :=
  (inverse_class_dict classes p.1).bind (fun idx =>
    (npIndex n ((idx : ℤ) - 1)).map (fun ch =>
      mask.set ch
        (paintFrag (mask.getD ch [])
          (S.rasterize (mask_frag_geom S location L p.2)) 1)))

/-- Stable insertion of a fragment into a list sorted by descending
`Polygon(·.exterior).area`, placing it after earlier fragments with
greater-or-equal key — the order `sorted(..., key=..., reverse=True)`
produces. -/
def insertDescArea {G : Type} (S : Shapely G) (p : String × G) :
    List (String × G) → List (String × G)
  | [] => [p]
  | q :: qs =>
    if S.extArea p.2 ≤ S.extArea q.2 then q :: insertDescArea S p qs
    else p :: q :: qs

/-- Line 209: sort the intersections by descending exterior-ring area of
each fragment (stable). -/
def sortDescArea {G : Type} (S : Shapely G) (l : List (String × G)) :
    List (String × G) :=
  l.foldl (fun acc p => insertDescArea S p acc) []

/-- Result of `get_tile_annot_mask`: a `(height, width)` class-index grid,
or a `(num_classes, height, width)` boolean volume. -/
inductive MaskOut where
  | single (g : List (List ℕ))
  | multi (g : List (List (List ℕ)))
deriving DecidableEq

/-- The fill phase of `get_tile_annot_mask` (lines 203–233), applied to
the fragments and post-query project state: either one channel per
non-background class (multilabel), or one shared single-label grid filled
in descending-area order. -/
def mask_fill {G : Type} (S : Shapely G) (classes : List String)
    (location : ℤ × ℤ) (size : ℕ × ℕ) (downsample_level : ℕ)
    (multilabel : Bool) (r : List (String × G) × ProjState G) :
    Option (MaskOut × ProjState G) :=
  if multilabel then
    if classes.length = 0 then none
    else
      let n := classes.length - 1
      (r.1.foldlM (multi_label_step S classes location downsample_level n)
          (List.replicate n (zeroGrid size.2 size.1))).map
        (fun m => (MaskOut.multi m, r.2))
  else
    ((sortDescArea S r.1).foldlM
        (single_label_step S classes location downsample_level)
        (zeroGrid size.2 size.1)).map
      (fun m => (MaskOut.single m, r.2))

/-- `QuPathTilingProject.get_tile_annot_mask` (lines 172–233): query
fragments with the tile size scaled up by `2 ^ downsample_level` (same
origin), then fill the mask with `mask_fill`.  `none` models a propagated
`get_tile_annot` failure, a KeyError on a fragment class, the ValueError
of `np.zeros((-1, h, w))` when the catalog is empty, or an IndexError
from a channel index below `-num_classes`. -/
def get_tile_annot_mask {G : Type} (S : Shapely G) (st : ProjState G)
    (img : ℕ) (location : ℤ × ℤ) (size : ℕ × ℕ) (downsample_level : ℕ)
    (multilabel : Bool) (class_filter : Option (List ClassKey)) :
    Option (MaskOut × ProjState G) :=
  let f := 2 ^ downsample_level
  (get_tile_annot S st img location (size.1 * f, size.2 * f) class_filter).bind
    (mask_fill S st.path_classes location size downsample_level multilabel)

/-! ## The annotation merger (`merge_near_annotations`, lines 261–314)

The Python worklist loop (`while len(nested_annotations) > 0`) pops one
buffered frontier geometry per iteration; a new frontier is pushed exactly
when a not-yet-merged annotation index is absorbed, so the number of
iterations never exceeds one plus the number of stored annotations.  We
translate the loop with a fuel parameter set to that bound
(`entries.length + 1`); `bfs_fuel_irrelevant` below proves the bound is
never reached, so the fuel is semantically inert. -/

/-- Inner loop over the query result for one frontier geometry (lines
293–309): skip already-merged indices, the seed annotation itself
(`index == near_poly_index`) and other classes; buffer the neighbour and
absorb it when its buffered geometry meets the frontier.  State:
`(annotations_to_merge, new frontier queue entries, already_merged)`. -/
def absorb_step {G : Type} (S : Shapely G) (d : ℤ) (index : ℕ) (cls : String)
    (front : G) (acc : List G × List G × List ℕ) (e : ℕ × (G × String)) :
    List G × List G × List ℕ :=
  if e.1 ∈ acc.2.2 ∨ e.1 = index ∨ cls ≠ e.2.2 then acc
  else
    let nb := S.buffer e.2.1 d
    if S.intersects nb front then
      (acc.1 ++ [nb], acc.2.1 ++ [nb], acc.2.2 ++ [e.1])
    else acc

/-- The frontier-expansion loop (lines 288–309): pop a frontier geometry,
query the tree with it, absorb every near same-class unmerged annotation,
and queue the absorbed buffered geometries as new frontiers. -/
def bfs {G : Type} (S : Shapely G) (entries : List (ℕ × (G × String)))
    (d : ℤ) (index : ℕ) (cls : String) :
    ℕ → List G → List G → List ℕ → List G × List ℕ
  | _, [], toMerge, merged => (toMerge, merged)
  | 0, _ :: _, toMerge, merged => (toMerge, merged)
  | fuel + 1, front :: rest, toMerge, merged =>
    let r := (S.query entries front).foldl
      (absorb_step S d index cls front) (toMerge, [], merged)
    bfs S entries d index cls fuel (rest ++ r.2.1) r.1 r.2.2

/-- One iteration of the outer loop of `merge_near_annotations` (lines
277–314) over the enumerated annotation snapshot, threading
`already_merged` and the live annotation collection: an already-merged
annotation is discarded; otherwise its component is expanded and, if it
has at least two members, replaced by the union of the buffered members
shrunk back by `max_dist`. -/
def merge_step {G : Type} [DecidableEq G] (S : Shapely G)
    (classes : List String) (entries : List (ℕ × (G × String))) (d : ℤ)
    (acc : List ℕ × List (Annot G)) (ie : ℕ × Annot G) :
    Option (List ℕ × List (Annot G)) :=
  if ie.1 ∈ acc.1 then some (acc.1, acc.2.erase ie.2)
  else
    ie.2.path_class.bind (fun cls =>
      let seed := S.buffer ie.2.roi d
      let r := bfs S entries d ie.1 cls (entries.length + 1) [seed] [seed] acc.1
      if 1 < r.1.length then
        (inverse_class_dict classes cls).bind (fun i =>
          (classes.get? i).map (fun clsObj =>
            (r.2, (acc.2 ++ [Annot.mk (S.buffer (S.unionG r.1) (-d)) (some clsObj)]).erase ie.2)))
      else some (r.2, acc.2))

/-- `QuPathTilingProject.merge_near_annotations` (lines 261–314): rebuild
the spatial index, then expand components from each unvisited annotation
in snapshot order.  `none` models a missing image id, the
`update_img_annot_dict` failures, or the KeyError of
`self._class_dict[self._inverse_class_dict[annot_poly_class]]`. -/
def merge_near_annotations {G : Type} [DecidableEq G] (S : Shapely G)
    (st : ProjState G) (img : ℕ) (max_dist : ℤ) : Option (ProjState G) :=
  (st.images.get? img).bind (fun annots =>
    (update_img_annot_dict st img).bind (fun st1 =>
      (lookupCache st1.img_annot_dict img).bind (fun entries =>
        (annots.enum.foldlM
            (merge_step S st1.path_classes entries.enum max_dist) ([], annots)).map
          (fun acc => { st1 with images := st1.images.set img acc.2 }))))

/-! ## Specification predicates -/

/-- The conditions under which processing a candidate `(roi, class id)`
pair emits the fragment `p`: the intersection with the tile polygon is
non-empty, the class filter passes, and `p` is among the emitted
fragments. -/
def EmitsCand {G : Type} (S : Shapely G) (classes : List String)
    (filt : Option (List ClassKey)) (tile : G) (e : G × String)
    (p : String × G) : Prop :=
  S.isEmptyG (S.inter e.1 tile) = false ∧
  filter_bool classes filt e.2 = some true ∧
  p ∈ emit_frags S e.2 (S.inter e.1 tile)

/-- An annotation emits the fragment `p` when it carries a class and its
candidate pair does. -/
def EmitsAnnot {G : Type} (S : Shapely G) (classes : List String)
    (filt : Option (List ClassKey)) (tile : G) (a : Annot G)
    (p : String × G) : Prop :=
  ∃ c, a.path_class = some c ∧ EmitsCand S classes filt tile (a.roi, c) p

/-- The cache entries the uncached branch of `get_tile_annot` records: one
`(roi, class id)` pair per class-bearing annotation, in order. -/
def classEntries {G : Type} (annots : List (Annot G)) : List (G × String) :=
  annots.filterMap (fun a => a.path_class.map (fun c => (a.roi, c)))

/-- Executable equality of two fragment lists as sets. -/
def sameElems {G : Type} [DecidableEq G] (l₁ l₂ : List (String × G)) : Bool :=
  l₁.all (fun p => l₂.any (fun q => decide (q = p))) &&
  l₂.all (fun p => l₁.any (fun q => decide (q = p)))

/-- Whether a fragment of class `c` matches the single filter key `k`,
by class id or by catalog index. -/
def matchKeyB (classes : List String) (k : ClassKey) (c : String) : Bool :=
  decide (k = Sum.inl c) ||
  (match inverse_class_dict classes c with
   | some i => decide (k = Sum.inr i)
   | none => false)

/-- The single-label mask value at `(row, col)`. -/
def cellAt (m : List (List ℕ)) (row col : ℕ) : Option ℕ :=
  (m.get? row).bind (fun r => r.get? col)

/-! ## Concrete test fixtures over `CShapely` -/

/-- An image with an empty annotation collection and no cached index. -/
def fixEmptySt : ProjState CGeom := ⟨[[]], ["bg"], []⟩

/-- A small triangle near the origin. -/
def gOne : CGeom := .prim ⟨true, {((0:ℚ), (0:ℚ)), ((1:ℚ), (0:ℚ)), ((0:ℚ), (1:ℚ))}⟩

/-- A small triangle away from the origin. -/
def gTwo : CGeom := .prim ⟨true, {((5:ℚ), (5:ℚ)), ((6:ℚ), (5:ℚ)), ((5:ℚ), (6:ℚ))}⟩

/-- A two-annotation image with no cached index. -/
def fixColdSt : ProjState CGeom :=
  ⟨[[⟨gOne, some "c1"⟩, ⟨gTwo, some "c2"⟩]], ["bg", "c1", "c2"], []⟩

/-- `fixColdSt` after `get_tile_annot` has built its cache. -/
def fixColdStCached : ProjState CGeom :=
  ⟨[[⟨gOne, some "c1"⟩, ⟨gTwo, some "c2"⟩]], ["bg", "c1", "c2"],
    [(0, [(gOne, "c1"), (gTwo, "c2")])]⟩

/-- A geometry whose intersection with the tile `(0,0)–(2,2)` is a
two-point degenerate (a "line", not a polygon). -/
def gDegen : CGeom :=
  .prim ⟨true, {((0:ℚ), (0:ℚ)), ((1:ℚ), (0:ℚ)), ((20:ℚ), (20:ℚ))}⟩

/-- A one-annotation image whose tile intersection is degenerate. -/
def fixDegenSt : ProjState CGeom := ⟨[[⟨gDegen, some "c1"⟩]], ["bg", "c1"], []⟩

/-- A large fragment (four points). -/
def gBig : CGeom :=
  .prim ⟨true, {((0:ℚ), (0:ℚ)), ((1:ℚ), (0:ℚ)), ((0:ℚ), (1:ℚ)), ((1:ℚ), (1:ℚ))}⟩

/-- A small fragment nested inside `gBig` (one point). -/
def gSmall : CGeom := .prim ⟨true, {((0:ℚ), (0:ℚ))}⟩

/-- A cached image with a large `cx` polygon and a nested small `cy`
polygon, for the single-label overlap tie-break.  The SMALLER fragment is
listed first in the cache, so an implementation that skipped the
descending-area sort would paint the large polygon last and erase the
nested class. -/
def fixNestSt : ProjState CGeom :=
  ⟨[[]], ["bg", "cx", "cy"], [(0, [(gSmall, "cy"), (gBig, "cx")])]⟩

/-- A cached image whose single annotation carries the background class
(catalog index 0), for the multilabel channel-wrap bug. -/
def fixBgSt : ProjState CGeom := ⟨[[]], ["bg", "c1", "c2"], [(0, [(gOne, "bg")])]⟩

/-- Merge counterexample: three same-class point annotations on a line at
x = 0, 3, 6.  With `max_dist = 2` the buffered geometries of neighbours
intersect pairwise (A–B and B–C), yet each point is farther than 2 from
the other geometries, so the STRtree query with a buffered seed never
returns a neighbour. -/
def aFar : Annot CGeom := ⟨.prim ⟨true, {((0:ℚ), (0:ℚ))}⟩, some "c"⟩

/-- See `aFar`. -/
def bFar : Annot CGeom := ⟨.prim ⟨true, {((3:ℚ), (0:ℚ))}⟩, some "c"⟩

/-- See `aFar`. -/
def cFar : Annot CGeom := ⟨.prim ⟨true, {((6:ℚ), (0:ℚ))}⟩, some "c"⟩

/-- The three-annotation image of `aFar`, `bFar`, `cFar`. -/
def fixFarSt : ProjState CGeom := ⟨[[aFar, bFar, cFar]], ["c"], []⟩

/-- Merge chain witness: point A at x = 0, segment B spanning x = 1..7,
point C at x = 8; with `max_dist = 1`, A meets buffered B, C meets
buffered B, while buffered A and buffered C stay disjoint. -/
def aNear : Annot CGeom := ⟨.prim ⟨true, {((0:ℚ), (0:ℚ))}⟩, some "c"⟩

/-- See `aNear`. -/
def bNear : Annot CGeom :=
  ⟨.prim ⟨true, {((1:ℚ), (0:ℚ)), ((2:ℚ), (0:ℚ)), ((3:ℚ), (0:ℚ)), ((4:ℚ), (0:ℚ)),
    ((5:ℚ), (0:ℚ)), ((6:ℚ), (0:ℚ)), ((7:ℚ), (0:ℚ))}⟩, some "c"⟩

/-- See `aNear`. -/
def cNear : Annot CGeom := ⟨.prim ⟨true, {((8:ℚ), (0:ℚ))}⟩, some "c"⟩

/-- The three-annotation image of `aNear`, `bNear`, `cNear`. -/
def fixNearSt : ProjState CGeom := ⟨[[aNear, bNear, cNear]], ["c"], []⟩

/-! # Theorems -/

/-- `keyMem` decides list membership. -/
theorem keyMem_iff (k : ClassKey) (fs : List ClassKey) :
    keyMem k fs = true ↔ k ∈ fs := by
  simp [keyMem, List.any_eq_true]

/-- A geometry with a point is not `is_empty`. -/
theorem isEmptyG_false {G : Type} (S : Shapely G) (g : G)
    (h : (S.pts g).Nonempty) : S.isEmptyG g = false := by
  cases hb : S.isEmptyG g with
  | false => rfl
  | true =>
    rw [(S.isEmpty_iff g).mp hb] at h
    exact absurd h (by simp)

/-- C1 (code_bug): querying an image with an empty annotation collection
(and no cached index) does not return an empty fragment sequence — the
cache-building step `np.array(img_ann_list, dtype=object).transpose()[0]`
raises IndexError on the empty list, and `get_tile_annot_mask` fails with
it, instead of producing an all-background mask. -/
theorem get_tile_annot_empty_fails {G : Type} (S : Shapely G)
    (st : ProjState G) (img : ℕ) (location : ℤ × ℤ) (size : ℕ × ℕ)
    (L : ℕ) (ml : Bool) (filt : Option (List ClassKey))
    (himg : st.images.get? img = some [])
    (hc : lookupCache st.img_annot_dict img = none) :
    get_tile_annot S st img location size filt = none ∧
    get_tile_annot_mask S st img location size L ml filt = none := by
  have himg' : st.images[img]? = some [] := by
    rw [← List.get?_eq_getElem?]; exact himg
  have h2 : ∀ sz : ℕ × ℕ, get_tile_annot S st img location sz filt = none := by
    intro sz
    simp [get_tile_annot, himg, himg', hc]
  refine ⟨h2 size, ?_⟩
  simp [get_tile_annot_mask, h2]

/-- Witness for `get_tile_annot_empty_fails` at a concrete empty image. -/
theorem get_tile_annot_empty_fails_witness :
    fixEmptySt.images.get? 0 = some [] ∧
    lookupCache fixEmptySt.img_annot_dict 0 = none ∧
    (get_tile_annot CShapely fixEmptySt 0 (0, 0) (4, 4) none = none ∧
     get_tile_annot_mask CShapely fixEmptySt 0 (0, 0) (4, 4) 0 false none = none) :=
  ⟨rfl, rfl,
    get_tile_annot_empty_fails CShapely fixEmptySt 0 (0, 0) (4, 4) 0 false none rfl rfl⟩

/-- Membership in the fold of `cand_step` over a candidate list: exactly
the accumulated fragments plus the fragments some candidate emits. -/
theorem cand_fold_mem {G : Type} (S : Shapely G) (classes : List String)
    (filt : Option (List ClassKey)) (tile : G) :
    ∀ (l : List (G × String)) (acc res : List (String × G)),
      l.foldlM (cand_step S classes filt tile) acc = some res →
      ∀ p, p ∈ res ↔ p ∈ acc ∨ ∃ e ∈ l, EmitsCand S classes filt tile e p := by
  intro l
  induction l with
  | nil =>
    intro acc res h p
    simp only [List.foldlM_nil, pure, Option.some.injEq] at h
    subst h
    simp
  | cons e tl ih =>
    intro acc res h p
    rw [List.foldlM_cons] at h
    cases hie : S.isEmptyG (S.inter e.1 tile) with
    | true =>
      rw [show cand_step S classes filt tile acc e = some acc by
            simp [cand_step, hie]] at h
      simp only [Option.bind_eq_bind, Option.some_bind] at h
      rw [ih acc res h p]
      constructor
      · rintro (hp | ⟨e', he', hemit⟩)
        · exact Or.inl hp
        · exact Or.inr ⟨e', List.mem_cons_of_mem _ he', hemit⟩
      · rintro (hp | ⟨e', he', hemit⟩)
        · exact Or.inl hp
        · rcases List.mem_cons.mp he' with rfl | he'
          · exact absurd hemit.1 (by simp [hie])
          · exact Or.inr ⟨e', he', hemit⟩
    | false =>
      cases hfb : filter_bool classes filt e.2 with
      | none =>
        rw [show cand_step S classes filt tile acc e = none by
              simp [cand_step, hie, hfb]] at h
        simp at h
      | some fb =>
        rw [show cand_step S classes filt tile acc e
              = some (if fb then acc ++ emit_frags S e.2 (S.inter e.1 tile) else acc) by
              simp [cand_step, hie, hfb]] at h
        simp only [Option.bind_eq_bind, Option.some_bind] at h
        cases fb with
        | false =>
          simp only [Bool.false_eq_true, if_false] at h
          rw [ih acc res h p]
          constructor
          · rintro (hp | ⟨e', he', hemit⟩)
            · exact Or.inl hp
            · exact Or.inr ⟨e', List.mem_cons_of_mem _ he', hemit⟩
          · rintro (hp | ⟨e', he', hemit⟩)
            · exact Or.inl hp
            · rcases List.mem_cons.mp he' with rfl | he'
              · exact absurd hemit.2.1 (by simp [hfb])
              · exact Or.inr ⟨e', he', hemit⟩
        | true =>
          simp only [if_pos rfl] at h
          rw [ih _ res h p]
          constructor
          · rintro (hp | ⟨e', he', hemit⟩)
            · rcases List.mem_append.mp hp with hp | hp
              · exact Or.inl hp
              · exact Or.inr ⟨e, List.mem_cons_self e tl, hie, hfb, hp⟩
            · exact Or.inr ⟨e', List.mem_cons_of_mem _ he', hemit⟩
          · rintro (hp | ⟨e', he', hemit⟩)
            · exact Or.inl (List.mem_append.mpr (Or.inl hp))
            · rcases List.mem_cons.mp he' with rfl | he'
              · exact Or.inl (List.mem_append.mpr (Or.inr hemit.2.2))
              · exact Or.inr ⟨e', he', hemit⟩

/-- The fold of `cand_step` succeeds as soon as every reached filter
lookup does. -/
theorem cand_fold_isSome {G : Type} (S : Shapely G) (classes : List String)
    (filt : Option (List ClassKey)) (tile : G) :
    ∀ (l : List (G × String)) (acc : List (String × G)),
      (∀ e ∈ l, S.isEmptyG (S.inter e.1 tile) = false →
        (filter_bool classes filt e.2).isSome) →
      (l.foldlM (cand_step S classes filt tile) acc).isSome := by
  intro l
  induction l with
  | nil => intro acc _; simp
  | cons e tl ih =>
    intro acc hall
    rw [List.foldlM_cons]
    cases hie : S.isEmptyG (S.inter e.1 tile) with
    | true =>
      rw [show cand_step S classes filt tile acc e = some acc by
            simp [cand_step, hie]]
      simp only [Option.bind_eq_bind, Option.some_bind]
      exact ih acc (fun e' he' => hall e' (List.mem_cons_of_mem _ he'))
    | false =>
      cases hfb : filter_bool classes filt e.2 with
      | none =>
        exact absurd (hall e (List.mem_cons_self e tl) hie) (by simp [hfb])
      | some fb =>
        rw [show cand_step S classes filt tile acc e
              = some (if fb then acc ++ emit_frags S e.2 (S.inter e.1 tile) else acc) by
              simp [cand_step, hie, hfb]]
        simp only [Option.bind_eq_bind, Option.some_bind]
        exact ih _ (fun e' he' => hall e' (List.mem_cons_of_mem _ he'))

/-- The uncached branch of `get_tile_annot` is the cached per-candidate
processing applied to the cache entries it records. -/
theorem cold_fold_eq {G : Type} (S : Shapely G) (classes : List String)
    (filt : Option (List ClassKey)) (tile : G) :
    ∀ (annots : List (Annot G)) (cacc : List (G × String))
      (racc : List (String × G)),
      annots.foldlM (cold_step S classes filt tile) (cacc, racc)
        = ((classEntries annots).foldlM (cand_step S classes filt tile) racc).map
            (fun r => (cacc ++ classEntries annots, r)) := by
  intro annots
  induction annots with
  | nil => intro cacc racc; simp [classEntries]
  | cons a tl ih =>
    intro cacc racc
    rw [List.foldlM_cons]
    cases hpc : a.path_class with
    | none =>
      rw [show cold_step S classes filt tile (cacc, racc) a = some (cacc, racc) by
            simp [cold_step, hpc]]
      simp only [Option.bind_eq_bind, Option.some_bind]
      rw [ih cacc racc]
      simp [classEntries, List.filterMap_cons, hpc]
    | some c =>
      have hce : classEntries (a :: tl) = (a.roi, c) :: classEntries tl := by
        simp [classEntries, List.filterMap_cons, hpc]
      rw [hce, List.foldlM_cons]
      cases hcs : cand_step S classes filt tile racc (a.roi, c) with
      | none =>
        rw [show cold_step S classes filt tile (cacc, racc) a = none by
              simp [cold_step, hpc, hcs]]
        simp
      | some r =>
        rw [show cold_step S classes filt tile (cacc, racc) a
              = some (cacc ++ [(a.roi, c)], r) by
              simp [cold_step, hpc, hcs]]
        simp only [Option.bind_eq_bind, Option.some_bind]
        rw [ih (cacc ++ [(a.roi, c)]) r]
        cases (classEntries tl).foldlM (cand_step S classes filt tile) r with
        | none => simp
        | some out => simp

/-- Cache entries correspond to the class-bearing annotations. -/
theorem mem_classEntries_iff {G : Type} (annots : List (Annot G))
    (e : G × String) :
    e ∈ classEntries annots ↔
      ∃ a ∈ annots, a.roi = e.1 ∧ a.path_class = some e.2 := by
  obtain ⟨g, c⟩ := e
  simp only [classEntries, List.mem_filterMap, Option.map_eq_some']
  constructor
  · rintro ⟨a, ha, c', hc, heq⟩
    injection heq with hg hc2
    subst hg; subst hc2
    exact ⟨a, ha, rfl, hc⟩
  · rintro ⟨a, ha, h1, h2⟩
    exact ⟨a, ha, c, h2, by rw [h1]⟩

/-- Decomposition of a successful `get_tile_annot` call: both branches
process some candidate list with `cand_step`; the cached branch processes
the query result over the cache entries and leaves the state unchanged,
the uncached branch processes every recorded class-bearing annotation and
stores the built cache. -/
theorem get_tile_annot_some {G : Type} (S : Shapely G) (st : ProjState G)
    (img : ℕ) (location : ℤ × ℤ) (size : ℕ × ℕ)
    (filt : Option (List ClassKey)) (res : List (String × G))
    (st' : ProjState G)
    (h : get_tile_annot S st img location size filt = some (res, st')) :
    ∃ annots cands, st.images.get? img = some annots ∧
      cands.foldlM (cand_step S st.path_classes filt (S.mkRect location size)) []
        = some res ∧
      ((∃ entries, lookupCache st.img_annot_dict img = some entries ∧
          cands = (S.query entries.enum (S.mkRect location size)).map Prod.snd ∧
          st' = st) ∨
       (lookupCache st.img_annot_dict img = none ∧
          cands = classEntries annots ∧
          classEntries annots ≠ [] ∧
          st' = { st with
            img_annot_dict := setCache st.img_annot_dict img (classEntries annots) })) := by
  cases himg : st.images.get? img with
  | none =>
    simp only [get_tile_annot, himg] at h
    exact Option.noConfusion h
  | some annots =>
    simp only [get_tile_annot, himg] at h
    cases hc : lookupCache st.img_annot_dict img with
    | some entries =>
      rw [hc] at h
      rcases Option.map_eq_some'.mp h with ⟨out, hf, heq⟩
      injection heq with h1 h2
      refine ⟨annots, (S.query entries.enum (S.mkRect location size)).map Prod.snd,
        rfl, ?_, Or.inl ⟨entries, rfl, rfl, h2.symm⟩⟩
      rw [List.foldlM_map, hf, h1]
    | none =>
      rw [hc, cold_fold_eq] at h
      rcases Option.bind_eq_some.mp h with ⟨acc, hacc, hif⟩
      rcases Option.map_eq_some'.mp hacc with ⟨out, hf, heqa⟩
      subst heqa
      simp only [List.nil_append] at hif
      by_cases hne : (classEntries annots).isEmpty
      · rw [if_pos hne] at hif
        exact Option.noConfusion hif
      · rw [if_neg hne] at hif
        injection hif with hif
        injection hif with h1 h2
        refine ⟨annots, classEntries annots, rfl, ?_, Or.inr ⟨rfl, rfl, ?_, h2.symm⟩⟩
        · rw [hf, h1]
        · intro hemp
          exact hne (by simp [hemp])

/-- Every emitted fragment's points lie inside the intersection it came
from. -/
theorem emits_pts_sub {G : Type} (S : Shapely G) (classes : List String)
    (filt : Option (List ClassKey)) (tile : G) (e : G × String)
    (p : String × G) (he : EmitsCand S classes filt tile e p) :
    S.pts p.2 ⊆ S.pts tile := by
  obtain ⟨_, _, hmem⟩ := he
  unfold emit_frags at hmem
  by_cases hm : S.isMultiPart (S.inter e.1 tile) = true
  · rw [if_pos hm] at hmem
    rcases List.mem_filterMap.mp hmem with ⟨g, hg, hsome⟩
    by_cases hp : S.isPolygon g = true
    · rw [if_pos hp] at hsome
      injection hsome with hsome
      subst hsome
      intro x hx
      have h1 : S.pts g ⊆ S.pts (S.inter e.1 tile) := S.geoms_sub _ _ hg
      have h2 := h1 hx
      rw [S.pts_inter] at h2
      exact (Finset.mem_inter.mp h2).2
    · rw [if_neg hp] at hsome; cases hsome
  · rw [if_neg hm] at hmem
    rcases List.mem_singleton.mp hmem with rfl
    intro x hx
    rw [S.pts_inter] at hx
    exact (Finset.mem_inter.mp hx).2

/-- C2 (confirmed): every fragment returned by `get_tile_annot` is fully
contained in the tile rectangle — its point set minus the tile polygon's
is empty — for every image, tile rectangle and class filter, in both the
cached and the uncached branch. -/
theorem tile_containment {G : Type} (S : Shapely G) (st : ProjState G)
    (img : ℕ) (location : ℤ × ℤ) (size : ℕ × ℕ)
    (filt : Option (List ClassKey)) (res : List (String × G))
    (st' : ProjState G)
    (h : get_tile_annot S st img location size filt = some (res, st')) :
    ∀ p ∈ res, S.pts p.2 \ S.pts (S.mkRect location size) = ∅ := by
  intro p hp
  obtain ⟨annots, cands, _, hfold, _⟩ :=
    get_tile_annot_some S st img location size filt res st' h
  have hm := (cand_fold_mem S st.path_classes filt (S.mkRect location size)
    cands [] res hfold p).mp hp
  rcases hm with hm | ⟨e, _, he⟩
  · cases hm
  · have hsub := emits_pts_sub S st.path_classes filt (S.mkRect location size) e p he
    rw [Finset.sdiff_eq_empty_iff_subset]
    exact hsub

/-- Witness for `tile_containment`: the fragment the concrete two-class
image yields on the tile `(0,0)–(2,2)` is contained in the tile. -/
theorem tile_containment_witness :
    CShapely.pts (CGeom.cInter gOne (CGeom.cRect (0, 0) (2, 2))) \
      CShapely.pts (CShapely.mkRect (0, 0) (2, 2)) = ∅ := by
  have h : get_tile_annot CShapely fixColdSt 0 (0, 0) (2, 2) none
      = some ([("c1", CGeom.cInter gOne (CGeom.cRect (0, 0) (2, 2)))],
          fixColdStCached) := by decide
  exact tile_containment CShapely fixColdSt 0 (0, 0) (2, 2) none _ _ h
    ("c1", CGeom.cInter gOne (CGeom.cRect (0, 0) (2, 2))) (by simp)

/-- Every emitted fragment carries its candidate's class. -/
theorem emit_frags_fst {G : Type} (S : Shapely G) (c : String) (i : G)
    (p : String × G) (h : p ∈ emit_frags S c i) : p.1 = c := by
  unfold emit_frags at h
  by_cases hm : S.isMultiPart i = true
  · rw [if_pos hm] at h
    rcases List.mem_filterMap.mp h with ⟨g, _, hsome⟩
    by_cases hp : S.isPolygon g = true
    · rw [if_pos hp] at hsome
      injection hsome with hsome
      subst hsome; rfl
    · rw [if_neg hp] at hsome; cases hsome
  · rw [if_neg hm] at h
    rcases List.mem_singleton.mp h with rfl; rfl

/-- Every emitted fragment is the whole intersection or one of its
members. -/
theorem emit_frags_snd {G : Type} (S : Shapely G) (c : String) (i : G)
    (p : String × G) (h : p ∈ emit_frags S c i) :
    p.2 = i ∨ p.2 ∈ S.geoms i := by
  unfold emit_frags at h
  by_cases hm : S.isMultiPart i = true
  · rw [if_pos hm] at h
    rcases List.mem_filterMap.mp h with ⟨g, hg, hsome⟩
    by_cases hp : S.isPolygon g = true
    · rw [if_pos hp] at hsome
      injection hsome with hsome
      subst hsome
      exact Or.inr hg
    · rw [if_neg hp] at hsome; cases hsome
  · rw [if_neg hm] at h
    rcases List.mem_singleton.mp h with rfl
    exact Or.inl rfl

/-- C4 (amended): every fragment `get_tile_annot` returns comes from some
candidate; when that candidate's intersection with the tile is multi-part,
the fragment is one of its simple-polygon members (non-polygonal members
are discarded), but when the intersection is a lone non-multi-part
geometry it is returned whole — even if it is a non-polygonal point or
line remnant. -/
theorem multipart_members_are_polygons {G : Type} (S : Shapely G)
    (st : ProjState G) (img : ℕ) (location : ℤ × ℤ) (size : ℕ × ℕ)
    (filt : Option (List ClassKey)) (res : List (String × G))
    (st' : ProjState G)
    (h : get_tile_annot S st img location size filt = some (res, st')) :
    ∀ p ∈ res, ∃ e : G × String,
      EmitsCand S st.path_classes filt (S.mkRect location size) e p ∧
      (S.isMultiPart (S.inter e.1 (S.mkRect location size)) = true →
        S.isPolygon p.2 = true) ∧
      (S.isMultiPart (S.inter e.1 (S.mkRect location size)) = false →
        p = (e.2, S.inter e.1 (S.mkRect location size))) := by
  intro p hp
  obtain ⟨annots, cands, _, hfold, _⟩ :=
    get_tile_annot_some S st img location size filt res st' h
  rcases (cand_fold_mem S st.path_classes filt (S.mkRect location size)
      cands [] res hfold p).mp hp with hm | ⟨e, _, he⟩
  · cases hm
  · refine ⟨e, he, ?_, ?_⟩
    · intro hmp
      have hmem := he.2.2
      unfold emit_frags at hmem
      rw [if_pos hmp] at hmem
      rcases List.mem_filterMap.mp hmem with ⟨g, _, hsome⟩
      by_cases hpg : S.isPolygon g = true
      · rw [if_pos hpg] at hsome
        injection hsome with hsome
        subst hsome; exact hpg
      · rw [if_neg hpg] at hsome; cases hsome
    · intro hmp
      have hmem := he.2.2
      unfold emit_frags at hmem
      rw [if_neg (by simp [hmp])] at hmem
      exact List.mem_singleton.mp hmem

/-- C4 (counterexample): on the concrete image whose annotation meets the
tile `(0,0)–(2,2)` in exactly two points (a degenerate line-like
intersection, non-empty, not multi-part, not a polygon), `get_tile_annot`
returns that non-polygonal remnant instead of discarding it. -/
theorem degenerate_fragment_returned :
    (get_tile_annot CShapely fixDegenSt 0 (0, 0) (2, 2) none).map
        (fun r => r.1.map (fun p =>
          (CShapely.isPolygon p.2, CShapely.isMultiPart p.2, CShapely.isEmptyG p.2)))
      = some [(false, false, false)] := by decide

/-- Witness for `multipart_members_are_polygons` at the degenerate
fixture. -/
theorem multipart_members_are_polygons_witness :
    ∃ e : CGeom × String,
      EmitsCand CShapely fixDegenSt.path_classes none
        (CShapely.mkRect (0, 0) (2, 2)) e
        ("c1", CGeom.cInter gDegen (CGeom.cRect (0, 0) (2, 2))) ∧
      (CShapely.isMultiPart (CShapely.inter e.1 (CShapely.mkRect (0, 0) (2, 2))) = true →
        CShapely.isPolygon (CGeom.cInter gDegen (CGeom.cRect (0, 0) (2, 2))) = true) ∧
      (CShapely.isMultiPart (CShapely.inter e.1 (CShapely.mkRect (0, 0) (2, 2))) = false →
        ("c1", CGeom.cInter gDegen (CGeom.cRect (0, 0) (2, 2)))
          = (e.2, CShapely.inter e.1 (CShapely.mkRect (0, 0) (2, 2)))) := by
  have h : get_tile_annot CShapely fixDegenSt 0 (0, 0) (2, 2) none
      = some ([("c1", CGeom.cInter gDegen (CGeom.cRect (0, 0) (2, 2)))],
          ⟨[[⟨gDegen, some "c1"⟩]], ["bg", "c1"], [(0, [(gDegen, "c1")])]⟩) := by
    decide
  exact multipart_members_are_polygons CShapely fixDegenSt 0 (0, 0) (2, 2) none
    _ _ h _ (by simp)

/-- With a singleton filter, `filter_bool` computes the key match. -/
theorem filter_bool_singleton (classes : List String) (k : ClassKey)
    (c : String) (b : Bool)
    (h : filter_bool classes (some [k]) c = some b) :
    matchKeyB classes k c = b := by
  have hk : keyMem (Sum.inl c : ClassKey) [k] = decide (k = Sum.inl c) := by
    simp [keyMem]
  have h' : (if keyMem (Sum.inl c) [k] = true then some true
      else Option.map (fun i => keyMem (Sum.inr i) [k])
        (inverse_class_dict classes c)) = some b := h
  clear h
  by_cases hkc : k = Sum.inl c
  · rw [hk, if_pos (by simp [hkc])] at h'
    injection h' with h'
    simp [matchKeyB, hkc, ← h']
  · rw [hk, if_neg (by simp [hkc])] at h'
    cases hinv : inverse_class_dict classes c with
    | none => rw [hinv] at h'; cases h'
    | some i =>
      rw [hinv] at h'
      injection h' with h'
      have h'' : keyMem (Sum.inr i : ClassKey) [k] = b := h'
      have hr : keyMem (Sum.inr i : ClassKey) [k] = decide (k = Sum.inr i) := by
        simp [keyMem]
      rw [hr] at h''
      simp [matchKeyB, hinv, hkc, ← h'']

/-- Folding with a singleton filter produces exactly the matching sublist
of the unfiltered fold. -/
theorem cand_fold_filter {G : Type} (S : Shapely G) (classes : List String)
    (tile : G) (k : ClassKey) :
    ∀ (l : List (G × String)) (accf accu resf resu : List (String × G)),
      l.foldlM (cand_step S classes (some [k]) tile) accf = some resf →
      l.foldlM (cand_step S classes none tile) accu = some resu →
      accf = accu.filter (fun p => matchKeyB classes k p.1) →
      resf = resu.filter (fun p => matchKeyB classes k p.1) := by
  intro l
  induction l with
  | nil =>
    intro accf accu resf resu hf hu hacc
    simp only [List.foldlM_nil, pure, Option.some.injEq] at hf hu
    subst hf; subst hu; exact hacc
  | cons e tl ih =>
    intro accf accu resf resu hf hu hacc
    rw [List.foldlM_cons] at hf hu
    cases hie : S.isEmptyG (S.inter e.1 tile) with
    | true =>
      rw [show cand_step S classes (some [k]) tile accf e = some accf by
            simp [cand_step, hie]] at hf
      rw [show cand_step S classes none tile accu e = some accu by
            simp [cand_step, hie]] at hu
      simp only [Option.bind_eq_bind, Option.some_bind] at hf hu
      exact ih _ _ _ _ hf hu hacc
    | false =>
      rw [show cand_step S classes none tile accu e
            = some (accu ++ emit_frags S e.2 (S.inter e.1 tile)) by
            simp [cand_step, hie, filter_bool]] at hu
      simp only [Option.bind_eq_bind, Option.some_bind] at hu
      cases hfb : filter_bool classes (some [k]) e.2 with
      | none =>
        rw [show cand_step S classes (some [k]) tile accf e = none by
              simp [cand_step, hie, hfb]] at hf
        simp at hf
      | some fb =>
        have hmk := filter_bool_singleton classes k e.2 fb hfb
        cases fb with
        | true =>
          rw [show cand_step S classes (some [k]) tile accf e
                = some (accf ++ emit_frags S e.2 (S.inter e.1 tile)) by
                simp [cand_step, hie, hfb]] at hf
          simp only [Option.bind_eq_bind, Option.some_bind] at hf
          refine ih _ _ _ _ hf hu ?_
          rw [hacc, List.filter_append]
          congr 1
          refine (List.filter_eq_self.mpr ?_).symm
          intro p hp
          rw [emit_frags_fst S e.2 _ p hp]
          exact hmk
        | false =>
          rw [show cand_step S classes (some [k]) tile accf e = some accf by
                simp [cand_step, hie, hfb]] at hf
          simp only [Option.bind_eq_bind, Option.some_bind] at hf
          refine ih _ _ _ _ hf hu ?_
          rw [hacc, List.filter_append]
          have hnil : (emit_frags S e.2 (S.inter e.1 tile)).filter
              (fun p => matchKeyB classes k p.1) = [] := by
            refine List.filter_eq_nil_iff.mpr ?_
            intro p hp
            rw [emit_frags_fst S e.2 _ p hp, hmk]
            simp
          rw [hnil, List.append_nil]

/-- C6 (confirmed): querying with the singleton class filter `{k}` returns
exactly the sublist of the unfiltered result whose class matches `k` —
by external class id or by local catalog index, inclusive-or — whichever
branch of `get_tile_annot` serves the call. -/
theorem filter_correctness {G : Type} (S : Shapely G) (st : ProjState G)
    (img : ℕ) (location : ℤ × ℤ) (size : ℕ × ℕ) (k : ClassKey)
    (res_f res_u : List (String × G)) (st'f st'u : ProjState G)
    (hf : get_tile_annot S st img location size (some [k]) = some (res_f, st'f))
    (hu : get_tile_annot S st img location size none = some (res_u, st'u)) :
    res_f = res_u.filter (fun p => matchKeyB st.path_classes k p.1) := by
  obtain ⟨annots, candsf, himgf, hfoldf, hbrf⟩ :=
    get_tile_annot_some S st img location size (some [k]) res_f st'f hf
  obtain ⟨annots', candsu, himgu, hfoldu, hbru⟩ :=
    get_tile_annot_some S st img location size none res_u st'u hu
  have hae : annots' = annots := by
    rw [himgf] at himgu
    injection himgu with himgu
    exact himgu.symm
  subst hae
  have hce : candsu = candsf := by
    rcases hbrf with ⟨e1, hl1, hc1, _⟩ | ⟨hl1, hc1, _, _⟩ <;>
      rcases hbru with ⟨e2, hl2, hc2, _⟩ | ⟨hl2, hc2, _, _⟩
    · rw [hl1] at hl2
      injection hl2 with hl2
      rw [hc1, hc2, hl2]
    · rw [hl1] at hl2; cases hl2
    · rw [hl2] at hl1; cases hl1
    · rw [hc1, hc2]
  rw [hce] at hfoldu
  exact cand_fold_filter S st.path_classes (S.mkRect location size) k candsf
    [] [] res_f res_u hfoldf hfoldu rfl

/-- Witness for `filter_correctness` on the concrete two-class image and
the tile `(0,0)–(6,6)` that meets both annotations. -/
theorem filter_correctness_witness :
    [("c1", CGeom.cInter gOne (CGeom.cRect (0, 0) (6, 6)))]
      = ([("c1", CGeom.cInter gOne (CGeom.cRect (0, 0) (6, 6))),
          ("c2", CGeom.cInter gTwo (CGeom.cRect (0, 0) (6, 6)))].filter
          (fun p => matchKeyB fixColdSt.path_classes (Sum.inl "c1") p.1)) := by
  have hf : get_tile_annot CShapely fixColdSt 0 (0, 0) (6, 6)
      (some [Sum.inl "c1"])
      = some ([("c1", CGeom.cInter gOne (CGeom.cRect (0, 0) (6, 6)))],
          fixColdStCached) := by decide
  have hu : get_tile_annot CShapely fixColdSt 0 (0, 0) (6, 6) none
      = some ([("c1", CGeom.cInter gOne (CGeom.cRect (0, 0) (6, 6))),
          ("c2", CGeom.cInter gTwo (CGeom.cRect (0, 0) (6, 6)))],
          fixColdStCached) := by decide
  exact filter_correctness CShapely fixColdSt 0 (0, 0) (6, 6) (Sum.inl "c1")
    _ _ _ _ hf hu

/-- Looking up a freshly stored cache entry. -/
theorem lookupCache_set {G : Type} (c : List (ℕ × List (G × String)))
    (img : ℕ) (v : List (G × String)) :
    lookupCache (setCache c img v) img = some v := by
  simp [lookupCache, setCache, List.find?]

/-- Every element a successful `mapM` over `Option` produces comes from
some list element. -/
theorem mapM_mem {α β : Type} (f : α → Option β) :
    ∀ (l : List α) (out : List β), l.mapM f = some out →
      ∀ b ∈ out, ∃ a ∈ l, f a = some b := by
  intro l
  induction l with
  | nil =>
    intro out h b hb
    simp only [List.mapM_nil, pure, Option.some.injEq] at h
    subst h; cases hb
  | cons a tl ih =>
    intro out h b hb
    rw [List.mapM_cons] at h
    rcases Option.bind_eq_some.mp h with ⟨x, hx, h2⟩
    rcases Option.bind_eq_some.mp h2 with ⟨xs, hxs, h3⟩
    injection h3 with h3
    subst h3
    rcases List.mem_cons.mp hb with rfl | hb'
    · exact ⟨a, List.mem_cons_self a tl, hx⟩
    · rcases ih xs hxs b hb' with ⟨a', ha', hfa⟩
      exact ⟨a', List.mem_cons_of_mem _ ha', hfa⟩

/-- The index built explicitly by `update_img_annot_dict` only stores
entries of class-bearing annotations of the image. -/
theorem update_img_annot_dict_cov {G : Type} (st st1 : ProjState G)
    (img : ℕ) (annots : List (Annot G))
    (himg : st.images.get? img = some annots)
    (h : update_img_annot_dict st img = some st1) :
    ∀ entries, lookupCache st1.img_annot_dict img = some entries →
      ∀ e ∈ entries, ∃ a ∈ annots, a.roi = e.1 ∧ a.path_class = some e.2 := by
  unfold update_img_annot_dict at h
  rw [himg] at h
  have h' : ((annots.mapM
      (fun (a : Annot G) => a.path_class.map (fun c => (a.roi, c)))).bind
      (fun entries =>
        if entries.isEmpty then none
        else some { st with
          img_annot_dict := setCache st.img_annot_dict img entries })) = some st1 := h
  clear h
  rcases Option.bind_eq_some.mp h' with ⟨ents, hmap, hif⟩
  by_cases hne : ents.isEmpty
  · rw [if_pos hne] at hif
    exact Option.noConfusion hif
  · rw [if_neg hne] at hif
    injection hif with hif
    subst hif
    intro entries heq
    rw [lookupCache_set] at heq
    injection heq with heq
    subst heq
    intro e he
    rcases mapM_mem _ annots ents hmap e he with ⟨a, ha, hfa⟩
    rcases Option.map_eq_some'.mp hfa with ⟨c, hc, heqc⟩
    cases heqc
    exact ⟨a, ha, rfl, hc⟩

/-- The index built lazily by the uncached branch of `get_tile_annot`
only stores entries of class-bearing annotations of the image. -/
theorem get_tile_annot_builds_cov {G : Type} (S : Shapely G)
    (st : ProjState G) (img : ℕ) (location : ℤ × ℤ) (size : ℕ × ℕ)
    (filt : Option (List ClassKey)) (res : List (String × G))
    (st' : ProjState G) (annots : List (Annot G))
    (himg : st.images.get? img = some annots)
    (hc : lookupCache st.img_annot_dict img = none)
    (h : get_tile_annot S st img location size filt = some (res, st')) :
    ∀ entries, lookupCache st'.img_annot_dict img = some entries →
      ∀ e ∈ entries, ∃ a ∈ annots, a.roi = e.1 ∧ a.path_class = some e.2 := by
  obtain ⟨annots', cands, himg', hfold, hbr⟩ :=
    get_tile_annot_some S st img location size filt res st' h
  have hae : annots' = annots := by
    rw [himg] at himg'
    injection himg' with himg'
    exact himg'.symm
  subst hae
  rcases hbr with ⟨entries0, hl, _, _⟩ | ⟨_, _, _, hst⟩
  · rw [hc] at hl; exact Option.noConfusion hl
  · subst hst
    intro entries heq
    rw [show lookupCache
        (setCache st.img_annot_dict img (classEntries annots')) img
        = some (classEntries annots') from lookupCache_set _ _ _] at heq
    injection heq with heq
    subst heq
    intro e he
    exact (mem_classEntries_iff annots' e).mp he

/-- C7 (confirmed): an annotation whose path class is null is never
returned: every fragment a successful `get_tile_annot` call yields traces
back to an annotation whose class is set to the fragment's class — in the
uncached branch among the image's current annotations, in the cached
branch among any annotation list covering the previously built index
(both builders produce such a cover: `update_img_annot_dict_cov` for the
explicit and `get_tile_annot_builds_cov` for the lazy build, each of which
skips or refuses unclassified annotations). -/
theorem null_class_never_returned {G : Type} (S : Shapely G)
    (st : ProjState G) (img : ℕ) (location : ℤ × ℤ) (size : ℕ × ℕ)
    (filt : Option (List ClassKey)) (res : List (String × G))
    (st' : ProjState G) (origin : List (Annot G))
    (h : get_tile_annot S st img location size filt = some (res, st'))
    (hcov : ∀ entries, lookupCache st.img_annot_dict img = some entries →
      ∀ e ∈ entries, ∃ a ∈ origin, a.roi = e.1 ∧ a.path_class = some e.2)
    (hcold : lookupCache st.img_annot_dict img = none →
      st.images.get? img = some origin) :
    ∀ p ∈ res, ∃ a ∈ origin, a.path_class = some p.1 ∧
      (p.2 = S.inter a.roi (S.mkRect location size) ∨
       p.2 ∈ S.geoms (S.inter a.roi (S.mkRect location size))) := by
  intro p hp
  obtain ⟨annots, cands, himg, hfold, hbr⟩ :=
    get_tile_annot_some S st img location size filt res st' h
  rcases (cand_fold_mem S st.path_classes filt (S.mkRect location size)
      cands [] res hfold p).mp hp with hm | ⟨e, hel, he⟩
  · cases hm
  · rcases hbr with ⟨entries, hl, hcands, _⟩ | ⟨hl, hcands, _, _⟩
    · subst hcands
      rcases List.mem_map.mp hel with ⟨ie, hie, rfl⟩
      have hie2 : ie ∈ entries.enum := (S.query_sublist entries.enum _).subset hie
      have hee : ie.2 ∈ entries := by
        rw [← List.enum_map_snd entries]
        exact List.mem_map_of_mem _ hie2
      rcases hcov entries hl ie.2 hee with ⟨a, ha, hroi, hcls⟩
      refine ⟨a, ha, ?_, ?_⟩
      · rw [hcls, emit_frags_fst S ie.2.2 _ p he.2.2]
      · rw [hroi]
        exact emit_frags_snd S ie.2.2 _ p he.2.2
    · have horg := hcold hl
      rw [himg] at horg
      injection horg with horg
      subst hcands
      rcases (mem_classEntries_iff annots e).mp hel with ⟨a, ha, hroi, hcls⟩
      refine ⟨a, horg ▸ ha, ?_, ?_⟩
      · rw [hcls, emit_frags_fst S e.2 _ p he.2.2]
      · rw [hroi]
        exact emit_frags_snd S e.2 _ p he.2.2

/-- Witness for `null_class_never_returned` on the concrete two-class
image. -/
theorem null_class_never_returned_witness :
    ∃ a ∈ [Annot.mk gOne (some "c1"), Annot.mk gTwo (some "c2")],
      a.path_class = some "c1" ∧
      (CGeom.cInter gOne (CGeom.cRect (0, 0) (2, 2))
          = CShapely.inter a.roi (CShapely.mkRect (0, 0) (2, 2)) ∨
       CGeom.cInter gOne (CGeom.cRect (0, 0) (2, 2))
          ∈ CShapely.geoms (CShapely.inter a.roi (CShapely.mkRect (0, 0) (2, 2)))) := by
  have h : get_tile_annot CShapely fixColdSt 0 (0, 0) (2, 2) none
      = some ([("c1", CGeom.cInter gOne (CGeom.cRect (0, 0) (2, 2)))],
          fixColdStCached) := by decide
  exact null_class_never_returned CShapely fixColdSt 0 (0, 0) (2, 2) none _ _
    [Annot.mk gOne (some "c1"), Annot.mk gTwo (some "c2")] h
    (fun entries heq => Option.noConfusion heq)
    (fun _ => rfl)
    ("c1", CGeom.cInter gOne (CGeom.cRect (0, 0) (2, 2))) (by simp)

/-- A successful fold implies every reached filter lookup succeeded. -/
theorem cand_fold_some_filter {G : Type} (S : Shapely G)
    (classes : List String) (filt : Option (List ClassKey)) (tile : G) :
    ∀ (l : List (G × String)) (acc res : List (String × G)),
      l.foldlM (cand_step S classes filt tile) acc = some res →
      ∀ e ∈ l, S.isEmptyG (S.inter e.1 tile) = false →
        (filter_bool classes filt e.2).isSome := by
  intro l
  induction l with
  | nil => intro acc res _ e he; cases he
  | cons e0 tl ih =>
    intro acc res h e he hie
    rw [List.foldlM_cons] at h
    cases hcs : cand_step S classes filt tile acc e0 with
    | none => rw [hcs] at h; simp at h
    | some acc' =>
      rw [hcs] at h
      simp only [Option.bind_eq_bind, Option.some_bind] at h
      rcases List.mem_cons.mp he with rfl | he'
      · by_contra hns
        have hnone : filter_bool classes filt e.2 = none := by
          cases hfb : filter_bool classes filt e.2
          · rfl
          · rw [hfb] at hns; simp at hns
        rw [show cand_step S classes filt tile acc e = none by
              simp [cand_step, hie, hnone]] at hcs
        cases hcs
      · exact ih acc' res h e he' hie

/-- A non-`is_empty` intersection has common points. -/
theorem inter_nonempty_of_not_empty {G : Type} (S : Shapely G) (a b : G)
    (h : S.isEmptyG (S.inter a b) = false) :
    (S.pts a ∩ S.pts b).Nonempty := by
  rw [← S.pts_inter]
  rcases Finset.eq_empty_or_nonempty (S.pts (S.inter a b)) with he | hne
  · rw [(S.isEmpty_iff _).mpr he] at h
    cases h
  · exact hne

/-- `sameElems` decides mutual membership. -/
theorem sameElems_iff {G : Type} [DecidableEq G]
    (l₁ l₂ : List (String × G)) :
    sameElems l₁ l₂ = true ↔
      (∀ p ∈ l₁, p ∈ l₂) ∧ (∀ p ∈ l₂, p ∈ l₁) := by
  simp only [sameElems, Bool.and_eq_true, List.all_eq_true, List.any_eq_true]
  constructor
  · rintro ⟨h1, h2⟩
    constructor
    · intro p hp
      rcases h1 p hp with ⟨q, hq, hqe⟩
      rw [← of_decide_eq_true hqe]
      exact hq
    · intro p hp
      rcases h2 p hp with ⟨q, hq, hqe⟩
      rw [← of_decide_eq_true hqe]
      exact hq
  · rintro ⟨h1, h2⟩
    exact ⟨fun p hp => ⟨p, h1 p hp, by simp⟩, fun p hp => ⟨p, h2 p hp, by simp⟩⟩

/-- C10 (confirmed): when no cached index exists, a `get_tile_annot` call
(which iterates the annotations directly and builds the cache) and an
immediately repeated identical call (served from the just-built spatial
index) return the same fragments as sets of `(class, polygon)` pairs, and
the second call leaves the state unchanged. -/
theorem cold_cached_same_result {G : Type} [DecidableEq G] (S : Shapely G)
    (st : ProjState G) (img : ℕ) (location : ℤ × ℤ) (size : ℕ × ℕ)
    (filt : Option (List ClassKey)) (res₁ : List (String × G))
    (st₁ : ProjState G)
    (hc : lookupCache st.img_annot_dict img = none)
    (h1 : get_tile_annot S st img location size filt = some (res₁, st₁)) :
    ∃ res₂, get_tile_annot S st₁ img location size filt = some (res₂, st₁) ∧
      sameElems res₁ res₂ = true := by
  obtain ⟨annots, cands, himg, hfold, hbr⟩ :=
    get_tile_annot_some S st img location size filt res₁ st₁ h1
  rcases hbr with ⟨entries, hl, _, _⟩ | ⟨_, hcands, hne, hst⟩
  · rw [hc] at hl; exact Option.noConfusion hl
  · subst hcands
    subst hst
    set E := classEntries annots with hE
    set tile := S.mkRect location size with htile
    have himg1 : (ProjState.mk (G := G) st.images st.path_classes
        (setCache st.img_annot_dict img E)).images.get? img = some annots := himg
    have hl1 : lookupCache (setCache st.img_annot_dict img E) img = some E :=
      lookupCache_set _ _ _
    -- the second call takes the cached branch over the query result
    have hsub : ∀ e ∈ (S.query E.enum tile).map Prod.snd, e ∈ E := by
      intro e he
      rcases List.mem_map.mp he with ⟨ie, hie, rfl⟩
      have hie2 : ie ∈ E.enum := (S.query_sublist E.enum tile).subset hie
      rw [← List.enum_map_snd E]
      exact List.mem_map_of_mem _ hie2
    have hfold2 : ((S.query E.enum tile).map Prod.snd).foldlM
        (cand_step S st.path_classes filt tile) [] |>.isSome := by
      apply cand_fold_isSome
      intro e he hie
      exact cand_fold_some_filter S st.path_classes filt tile E [] res₁ hfold e
        (hsub e he) hie
    rcases Option.isSome_iff_exists.mp hfold2 with ⟨res₂, hres₂⟩
    refine ⟨res₂, ?_, ?_⟩
    · simp only [get_tile_annot, himg1, hl1]
      rw [List.foldlM_map] at hres₂
      rw [hres₂]
      rfl
    · rw [sameElems_iff]
      have hm1 := cand_fold_mem S st.path_classes filt tile E [] res₁ hfold
      have hm2 := cand_fold_mem S st.path_classes filt tile
        ((S.query E.enum tile).map Prod.snd) [] res₂ hres₂
      constructor
      · intro p hp
        rcases (hm1 p).mp hp with hn | ⟨e, he, hemit⟩
        · cases hn
        · refine (hm2 p).mpr (Or.inr ⟨e, ?_, hemit⟩)
          -- the entry with its build position is returned by the query
          rcases List.mem_iff_get.mp he with ⟨i, hi⟩
          have hget : E.get? i = some e := by
            rw [List.get?_eq_get]; exact congrArg some hi
          have hienum : ((i : ℕ), e) ∈ E.enum := by
            rw [List.mem_enum_iff_get?]
            exact hget
          have hq : ((i : ℕ), e) ∈ S.query E.enum tile :=
            S.query_complete E.enum tile (i, e) hienum
              (inter_nonempty_of_not_empty S e.1 tile hemit.1)
          exact List.mem_map_of_mem Prod.snd hq
      · intro p hp
        rcases (hm2 p).mp hp with hn | ⟨e, he, hemit⟩
        · cases hn
        · exact (hm1 p).mpr (Or.inr ⟨e, hsub e he, hemit⟩)

/-- Witness for `cold_cached_same_result` at the concrete two-class
image. -/
theorem cold_cached_same_result_witness :
    ∃ res₂, get_tile_annot CShapely fixColdStCached 0 (0, 0) (2, 2) none
        = some (res₂, fixColdStCached) ∧
      sameElems [("c1", CGeom.cInter gOne (CGeom.cRect (0, 0) (2, 2)))] res₂
        = true := by
  have h1 : get_tile_annot CShapely fixColdSt 0 (0, 0) (2, 2) none
      = some ([("c1", CGeom.cInter gOne (CGeom.cRect (0, 0) (2, 2)))],
          fixColdStCached) := by decide
  exact cold_cached_same_result CShapely fixColdSt 0 (0, 0) (2, 2) none _ _
    rfl h1

/-- C5 (code_bug): in multilabel mode a fragment whose class maps to local
index 0 (the background/first catalog class) gets channel `0 - 1 = -1`,
which numpy indexing wraps to the last channel `num_classes - 1` — the
fragment of class `"bg"` below is painted into channel 1, the channel of
class `"c2"`, and no error is surfaced. -/
theorem background_class_wraps_to_last_channel :
    get_tile_annot_mask CShapely fixBgSt 0 (0, 0) (2, 2) 0 true none
      = some (MaskOut.multi [[[0, 0], [0, 0]], [[1, 1], [1, 0]]], fixBgSt) := by
  decide

/-- A successful fill leaves the post-query state untouched. -/
theorem mask_fill_snd {G : Type} (S : Shapely G) (classes : List String)
    (location : ℤ × ℤ) (size : ℕ × ℕ) (L : ℕ) (ml : Bool)
    (r : List (String × G) × ProjState G) (M : MaskOut) (st' : ProjState G)
    (h : mask_fill S classes location size L ml r = some (M, st')) :
    st' = r.2 := by
  unfold mask_fill at h
  by_cases hml : ml = true
  · rw [if_pos hml] at h
    by_cases hz : classes.length = 0
    · rw [if_pos hz] at h
      cases h
    · rw [if_neg hz] at h
      rcases Option.map_eq_some'.mp h with ⟨m, _, heq⟩
      injection heq with h1 h2
      exact h2.symm
  · rw [if_neg hml] at h
    rcases Option.map_eq_some'.mp h with ⟨m, _, heq⟩
    injection heq with h1 h2
    exact h2.symm

/-- C8 (confirmed): `get_tile_annot_mask` queries annotation fragments
with the tile size enlarged by `2 ^ downsample_level` at the same origin,
and the geometry it rounds and fills for a fragment is the fragment first
translated by the negated tile origin and then scaled by
`1 / 2 ^ downsample_level` about the coordinate origin — pointwise
`p ↦ ((p.1 - x) / 2 ^ L, (p.2 - y) / 2 ^ L)`. -/
theorem mask_query_and_transform {G : Type} (S : Shapely G)
    (st : ProjState G) (img : ℕ) (x y : ℤ) (w h L : ℕ) (ml : Bool)
    (filt : Option (List ClassKey)) (M : MaskOut) (st' : ProjState G)
    (hm : get_tile_annot_mask S st img (x, y) (w, h) L ml filt
      = some (M, st')) :
    (∃ res, get_tile_annot S st img (x, y) (w * 2 ^ L, h * 2 ^ L) filt
        = some (res, st')) ∧
    ∀ g : G, S.pts (mask_frag_geom S (x, y) L g)
        = (S.pts g).image
            (fun p => ((p.1 - (x : ℚ)) / 2 ^ L, (p.2 - (y : ℚ)) / 2 ^ L)) := by
  have hb : get_tile_annot_mask S st img (x, y) (w, h) L ml filt
      = (get_tile_annot S st img (x, y) (w * 2 ^ L, h * 2 ^ L) filt).bind
          (mask_fill S st.path_classes (x, y) (w, h) L ml) := rfl
  rw [hb] at hm
  constructor
  · cases hq : get_tile_annot S st img (x, y) (w * 2 ^ L, h * 2 ^ L) filt with
    | none =>
      rw [hq] at hm
      cases hm
    | some r =>
      rw [hq] at hm
      simp only [Option.some_bind] at hm
      refine ⟨r.1, ?_⟩
      have hsnd : st' = r.2 := mask_fill_snd S st.path_classes (x, y) (w, h) L
        ml r M st' hm
      rw [hsnd]
  · intro g
    unfold mask_frag_geom
    rw [S.pts_scale, S.pts_translate, Finset.image_image]
    have hfun : ((fun p : Pt => ((Rat.divInt 1 (2 ^ L)) * p.1,
          (Rat.divInt 1 (2 ^ L)) * p.2)) ∘
        (fun p : Pt => (p.1 + -(x : ℚ), p.2 + -(y : ℚ))))
        = (fun p : Pt => ((p.1 - (x : ℚ)) / 2 ^ L, (p.2 - (y : ℚ)) / 2 ^ L)) := by
      funext p
      simp only [Function.comp_apply, Prod.mk.injEq, Rat.divInt_eq_div]
      push_cast
      constructor <;> ring
    rw [hfun]

/-- Witness for `mask_query_and_transform` at the concrete two-class image
with downsample level 1. -/
theorem mask_query_and_transform_witness :
    (∃ res, get_tile_annot CShapely fixColdSt 0 (0, 0) (1 * 2 ^ 1, 1 * 2 ^ 1) none
        = some (res, fixColdStCached)) ∧
    CShapely.pts (mask_frag_geom CShapely (0, 0) 1 gOne)
        = (CShapely.pts gOne).image
            (fun p => ((p.1 - (0 : ℚ)) / 2 ^ 1, (p.2 - (0 : ℚ)) / 2 ^ 1)) := by
  have hm : get_tile_annot_mask CShapely fixColdSt 0 (0, 0) (1, 1) 1 false none
      = some (MaskOut.single [[1]], fixColdStCached) := by decide
  have h := mask_query_and_transform CShapely fixColdSt 0 0 0 1 1 1 false none
    _ _ hm
  exact ⟨h.1, h.2 gOne⟩

/-- A sublist of a two-element list containing both (distinct) elements
is the whole list. -/
theorem sublist_pair_eq {α : Type} [DecidableEq α] (l : List α) (a b : α)
    (hs : l.Sublist [a, b]) (ha : a ∈ l) (hb : b ∈ l) (hne : a ≠ b) :
    l = [a, b] := by
  apply hs.eq_of_length
  have hle : l.length ≤ 2 := by simpa using hs.length_le
  have hsub : ({a, b} : Finset α) ⊆ l.toFinset := by
    intro z hz
    rcases Finset.mem_insert.mp hz with rfl | hz
    · exact List.mem_toFinset.mpr ha
    · rcases Finset.mem_singleton.mp hz with rfl
      exact List.mem_toFinset.mpr hb
  have h2 : 2 ≤ l.length :=
    calc 2 = ({a, b} : Finset α).card := (Finset.card_pair hne).symm
    _ ≤ l.toFinset.card := Finset.card_le_card hsub
    _ ≤ l.length := l.toFinset_card_le
  show l.length = 2
  omega

/-- The mask value of a zero grid at an in-bounds cell. -/
theorem cellAt_zeroGrid (h w row col : ℕ) (hr : row < h) (hc : col < w) :
    cellAt (zeroGrid h w) row col = some 0 := by
  unfold cellAt zeroGrid
  have h1 : (List.replicate h (List.replicate w (0:ℕ))).get? row
      = some (List.replicate w 0) := by
    rw [List.get?_eq_get (by simpa using hr)]
    simp [List.get_replicate]
  rw [h1]
  simp only [Option.some_bind]
  rw [List.get?_eq_get (by simpa using hc)]
  simp [List.get_replicate]

/-- The mask value after one `cv2.fillPoly` pass. -/
theorem cellAt_fillGrid (g : List (List ℕ)) (r : Finset Px) (v : ℕ)
    (row col : ℕ) :
    cellAt (fillGrid g r v) row col
      = (cellAt g row col).map
          (fun old => if ((col : ℤ), (row : ℤ)) ∈ r then v % 256 else old) := by
  unfold cellAt fillGrid
  rw [List.get?_map, List.get?_enum]
  cases hrow : g.get? row with
  | none => simp
  | some xs =>
    simp only [Option.map_some', Option.some_bind]
    rw [List.get?_map, List.get?_enum]
    cases hcol : xs.get? col with
    | none => simp
    | some x => simp

/-- C3 (confirmed): in single-label mode `get_tile_annot_mask` sorts the
fragments by descending exterior-ring area before filling, so that with a
smaller fragment painted after — hence over — a larger one containing it,
the pixels of the nested region carry the smaller fragment's class index
and the remaining pixels of the larger region carry the larger fragment's
class index — whichever order the two annotations are stored in (in the
smaller-first order the sort genuinely reorders the fill).  Swapping the
two areas is this same statement with the two fragments' roles exchanged,
which swaps the winner. -/
theorem single_label_overlap_tiebreak {G : Type} [DecidableEq G] (S : Shapely G)
    (st : ProjState G) (img : ℕ) (x y : ℤ) (w h L : ℕ)
    (annots : List (Annot G)) (gX gY : G) (cX cY : String) (iX iY : ℕ)
    (RX RY : Finset Px)
    (himg : st.images.get? img = some annots)
    (hcache : lookupCache st.img_annot_dict img = some [(gX, cX), (gY, cY)]
      ∨ lookupCache st.img_annot_dict img = some [(gY, cY), (gX, cX)])
    (hX : (S.pts gX ∩ S.pts (S.mkRect (x, y) (w * 2 ^ L, h * 2 ^ L))).Nonempty)
    (hY : (S.pts gY ∩ S.pts (S.mkRect (x, y) (w * 2 ^ L, h * 2 ^ L))).Nonempty)
    (hmX : S.isMultiPart (S.inter gX (S.mkRect (x, y) (w * 2 ^ L, h * 2 ^ L))) = false)
    (hmY : S.isMultiPart (S.inter gY (S.mkRect (x, y) (w * 2 ^ L, h * 2 ^ L))) = false)
    (harea : S.extArea (S.inter gY (S.mkRect (x, y) (w * 2 ^ L, h * 2 ^ L)))
      < S.extArea (S.inter gX (S.mkRect (x, y) (w * 2 ^ L, h * 2 ^ L))))
    (hiX : inverse_class_dict st.path_classes cX = some iX)
    (hiY : inverse_class_dict st.path_classes cY = some iY)
    (hblX : iX < 256) (hblY : iY < 256)
    (hrX : S.rasterize (mask_frag_geom S (x, y) L
      (S.inter gX (S.mkRect (x, y) (w * 2 ^ L, h * 2 ^ L)))) = (RX, []))
    (hrY : S.rasterize (mask_frag_geom S (x, y) L
      (S.inter gY (S.mkRect (x, y) (w * 2 ^ L, h * 2 ^ L)))) = (RY, [])) :
    ∃ M, get_tile_annot_mask S st img (x, y) (w, h) L false none
        = some (MaskOut.single M, st) ∧
      ∀ row col : ℕ, row < h → col < w →
        (((col : ℤ), (row : ℤ)) ∈ RY → cellAt M row col = some iY) ∧
        (((col : ℤ), (row : ℤ)) ∈ RX → ((col : ℤ), (row : ℤ)) ∉ RY →
          cellAt M row col = some iX) := by
  set tile := S.mkRect (x, y) (w * 2 ^ L, h * 2 ^ L) with htile
  set FX := S.inter gX tile with hFX
  set FY := S.inter gY tile with hFY
  have hFXe : S.isEmptyG FX = false := isEmptyG_false S _ (by
    rw [hFX, S.pts_inter]; exact hX)
  have hFYe : S.isEmptyG FY = false := isEmptyG_false S _ (by
    rw [hFY, S.pts_inter]; exact hY)
  -- whichever cache order holds, the query preserves it and the sort
  -- rearranges the emitted fragments into descending-area order
  have key : ∃ r, get_tile_annot S st img (x, y) (w * 2 ^ L, h * 2 ^ L) none
      = some (r, st) ∧ sortDescArea S r = [(cX, FX), (cY, FY)] := by
    rcases hcache with hcache | hcache
    · refine ⟨[(cX, FX), (cY, FY)], ?_, ?_⟩
      · have henum : ([(gX, cX), (gY, cY)] : List (G × String)).enum
            = [((0:ℕ), (gX, cX)), (1, (gY, cY))] := rfl
        have hq : S.query [((0:ℕ), (gX, cX)), (1, (gY, cY))] tile
            = [((0:ℕ), (gX, cX)), (1, (gY, cY))] := by
          apply sublist_pair_eq
          · exact S.query_sublist _ _
          · exact S.query_complete _ _ _ (by simp) hX
          · exact S.query_complete _ _ _ (by simp) hY
          · simp
        have hfold : ([((0:ℕ), (gX, cX)), (1, (gY, cY))]).foldlM
            (fun r (e : ℕ × (G × String)) =>
              cand_step S st.path_classes none tile r e.2)
            [] = some [(cX, FX), (cY, FY)] := by
          rw [List.foldlM_cons,
            show cand_step S st.path_classes none tile [] (gX, cX)
              = some [(cX, FX)] by
                simp [cand_step, hFXe, filter_bool, emit_frags, hmX]]
          simp only [Option.bind_eq_bind, Option.some_bind]
          rw [List.foldlM_cons,
            show cand_step S st.path_classes none tile [(cX, FX)] (gY, cY)
              = some [(cX, FX), (cY, FY)] by
              simp [cand_step, hFYe, filter_bool, emit_frags, hmY]]
          simp only [Option.bind_eq_bind, Option.some_bind, List.foldlM_nil]
          rfl
        simp only [get_tile_annot, himg, hcache, henum, hq, hfold,
          Option.map_some']
      · show List.foldl _ [] _ = _
        rw [List.foldl_cons, List.foldl_cons, List.foldl_nil]
        show insertDescArea S (cY, FY) [(cX, FX)] = _
        unfold insertDescArea
        rw [if_pos (le_of_lt harea)]
        rfl
    · refine ⟨[(cY, FY), (cX, FX)], ?_, ?_⟩
      · have henum : ([(gY, cY), (gX, cX)] : List (G × String)).enum
            = [((0:ℕ), (gY, cY)), (1, (gX, cX))] := rfl
        have hq : S.query [((0:ℕ), (gY, cY)), (1, (gX, cX))] tile
            = [((0:ℕ), (gY, cY)), (1, (gX, cX))] := by
          apply sublist_pair_eq
          · exact S.query_sublist _ _
          · exact S.query_complete _ _ _ (by simp) hY
          · exact S.query_complete _ _ _ (by simp) hX
          · simp
        have hfold : ([((0:ℕ), (gY, cY)), (1, (gX, cX))]).foldlM
            (fun r (e : ℕ × (G × String)) =>
              cand_step S st.path_classes none tile r e.2)
            [] = some [(cY, FY), (cX, FX)] := by
          rw [List.foldlM_cons,
            show cand_step S st.path_classes none tile [] (gY, cY)
              = some [(cY, FY)] by
                simp [cand_step, hFYe, filter_bool, emit_frags, hmY]]
          simp only [Option.bind_eq_bind, Option.some_bind]
          rw [List.foldlM_cons,
            show cand_step S st.path_classes none tile [(cY, FY)] (gX, cX)
              = some [(cY, FY), (cX, FX)] by
              simp [cand_step, hFXe, filter_bool, emit_frags, hmX]]
          simp only [Option.bind_eq_bind, Option.some_bind, List.foldlM_nil]
          rfl
        simp only [get_tile_annot, himg, hcache, henum, hq, hfold,
          Option.map_some']
      · show List.foldl _ [] _ = _
        rw [List.foldl_cons, List.foldl_cons, List.foldl_nil]
        show insertDescArea S (cX, FX) [(cY, FY)] = _
        unfold insertDescArea
        rw [if_neg (not_le.mpr harea)]
  obtain ⟨frs, hannot, hsort⟩ := key
  -- the single-label fill phase paints the sorted fragments
  have hstep1 : single_label_step S st.path_classes (x, y) L (zeroGrid h w)
      (cX, FX) = some (fillGrid (zeroGrid h w) RX iX) := by
    simp [single_label_step, hiX, hrX, paintFrag]
  have hstep2 : single_label_step S st.path_classes (x, y) L
      (fillGrid (zeroGrid h w) RX iX) (cY, FY)
      = some (fillGrid (fillGrid (zeroGrid h w) RX iX) RY iY) := by
    simp [single_label_step, hiY, hrY, paintFrag]
  have hmaskb : get_tile_annot_mask S st img (x, y) (w, h) L false none
      = (get_tile_annot S st img (x, y) (w * 2 ^ L, h * 2 ^ L) none).bind
          (mask_fill S st.path_classes (x, y) (w, h) L false) := rfl
  refine ⟨fillGrid (fillGrid (zeroGrid h w) RX iX) RY iY, ?_, ?_⟩
  · rw [hmaskb, hannot]
    simp only [Option.some_bind]
    unfold mask_fill
    rw [if_neg (by simp)]
    show (((sortDescArea S frs).foldlM
      (single_label_step S st.path_classes (x, y) L) (zeroGrid h w)).map _) = _
    rw [hsort, List.foldlM_cons, hstep1]
    simp only [Option.bind_eq_bind, Option.some_bind]
    rw [List.foldlM_cons, hstep2]
    simp only [Option.bind_eq_bind, Option.some_bind, List.foldlM_nil]
    rfl
  · intro row col hr hc
    have hcell := cellAt_fillGrid (fillGrid (zeroGrid h w) RX iX) RY iY row col
    have hcell1 := cellAt_fillGrid (zeroGrid h w) RX iX row col
    rw [cellAt_zeroGrid h w row col hr hc] at hcell1
    rw [hcell1] at hcell
    constructor
    · intro hmem
      rw [hcell]
      simp only [Option.map_some', if_pos hmem]
      rw [Nat.mod_eq_of_lt hblY]
    · intro hmemX hmemY
      rw [hcell]
      simp only [Option.map_some']
      rw [if_neg hmemY, if_pos hmemX, Nat.mod_eq_of_lt hblX]

/-- Witness for `single_label_overlap_tiebreak`: with the four-point
fragment of `"cx"` (index 1) and the nested one-point fragment of `"cy"`
(index 2) — the nested small fragment stored FIRST in the cache, so the
descending-area sort must move the big fragment ahead of it — the nested
pixel ends up with class 2 and the remaining pixels with class 1. -/
theorem single_label_overlap_tiebreak_witness :
    ∃ M, get_tile_annot_mask CShapely fixNestSt 0 (0, 0) (2, 2) 0 false none
        = some (MaskOut.single M, fixNestSt) ∧
      cellAt M 0 0 = some 2 ∧ cellAt M 0 1 = some 1 ∧
      cellAt M 1 0 = some 1 ∧ cellAt M 1 1 = some 1 := by
  obtain ⟨M, hM, hcells⟩ := single_label_overlap_tiebreak CShapely fixNestSt 0
    0 0 2 2 0 [] gBig gSmall "cx" "cy" 1 2
    ({((0:ℤ), (0:ℤ)), (1, 0), (0, 1), (1, 1)} : Finset Px)
    ({((0:ℤ), (0:ℤ))} : Finset Px)
    rfl (Or.inr rfl) (by decide) (by decide) (by decide) (by decide)
    (by decide) (by decide) (by decide) (by decide) (by decide) (by decide)
    (by decide)
  exact ⟨M, hM,
    (hcells 0 0 (by decide) (by decide)).1 (by decide),
    (hcells 0 1 (by decide) (by decide)).2 (by decide) (by decide),
    (hcells 1 0 (by decide) (by decide)).2 (by decide) (by decide),
    (hcells 1 1 (by decide) (by decide)).2 (by decide) (by decide)⟩

/-- C9 (counterexample): three same-class annotations at x = 0, 3, 6 with
`max_dist = 2` satisfy the claim's premises — A's and B's geometries each
buffered by 2 intersect, as do B's and C's, while A's and C's do not —
yet one call to `merge_near_annotations` merges nothing: the spatial
query with the buffered seed only returns geometries meeting it, and each
unbuffered neighbour lies farther than `max_dist`, so all three original
annotations survive. -/
theorem merge_buffered_adjacency_insufficient :
    ((CShapely.pts (CShapely.buffer aFar.roi 2)
        ∩ CShapely.pts (CShapely.buffer bFar.roi 2)).Nonempty ∧
     (CShapely.pts (CShapely.buffer bFar.roi 2)
        ∩ CShapely.pts (CShapely.buffer cFar.roi 2)).Nonempty ∧
     (CShapely.pts (CShapely.buffer aFar.roi 2)
        ∩ CShapely.pts (CShapely.buffer cFar.roi 2)) = ∅) ∧
    (merge_near_annotations CShapely fixFarSt 0 2).map
        (fun s => s.images.get? 0) = some (some [aFar, bFar, cFar]) := by
  decide

/-- Unfolding the frontier loop one step. -/
theorem bfs_cons {G : Type} (S : Shapely G)
    (entries : List (ℕ × (G × String))) (d : ℤ) (index : ℕ) (cls : String)
    (fuel : ℕ) (front : G) (rest toMerge : List G) (merged : List ℕ) :
    bfs S entries d index cls (fuel + 1) (front :: rest) toMerge merged
      = (let r := (S.query entries front).foldl
          (absorb_step S d index cls front) (toMerge, [], merged)
         bfs S entries d index cls fuel (rest ++ r.2.1) r.1 r.2.2) := rfl

/-- The frontier loop stops on an empty worklist. -/
theorem bfs_nil {G : Type} (S : Shapely G)
    (entries : List (ℕ × (G × String))) (d : ℤ) (index : ℕ) (cls : String)
    (fuel : ℕ) (toMerge : List G) (merged : List ℕ) :
    bfs S entries d index cls fuel [] toMerge merged = (toMerge, merged) := by
  cases fuel <;> rfl

/-- A query-result pass in which every near item is skipped (already
merged, the seed itself, another class, or not meeting the frontier)
leaves the loop state unchanged. -/
theorem absorb_fold_skip {G : Type} (S : Shapely G) (d : ℤ) (index : ℕ)
    (cls : String) (front : G) :
    ∀ (q : List (ℕ × (G × String))) (acc : List G × List G × List ℕ),
      (∀ e ∈ q, e.1 = index ∨ cls ≠ e.2.2 ∨
        S.intersects (S.buffer e.2.1 d) front = false ∨ e.1 ∈ acc.2.2) →
      q.foldl (absorb_step S d index cls front) acc = acc := by
  intro q
  induction q with
  | nil => intro acc _; rfl
  | cons e tl ih =>
    intro acc hall
    rw [List.foldl_cons]
    have hstep : absorb_step S d index cls front acc e = acc := by
      rcases hall e (List.mem_cons_self e tl) with h | h | h | h
      · unfold absorb_step; rw [if_pos (Or.inr (Or.inl h))]
      · unfold absorb_step; rw [if_pos (Or.inr (Or.inr h))]
      · simp only [absorb_step]
        by_cases hin : e.1 ∈ acc.2.2 ∨ e.1 = index ∨ cls ≠ e.2.2
        · rw [if_pos hin]
        · rw [if_neg hin, if_neg (by simp [h])]
      · unfold absorb_step; rw [if_pos (Or.inl h)]
    rw [hstep]
    exact ih acc (fun e' he' => hall e' (List.mem_cons_of_mem _ he'))

/-- A query-result pass in which exactly one item `X` is absorbable and
every other item is skipped appends `X`'s buffered geometry and index. -/
theorem absorb_fold_one {G : Type} (S : Shapely G) (d : ℤ) (index : ℕ)
    (cls : String) (front : G) (X : ℕ × (G × String)) :
    ∀ (q : List (ℕ × (G × String))) (tm nn : List G) (m0 : List ℕ),
      q.Nodup → X ∈ q →
      (∀ e ∈ q, e ≠ X →
        e.1 = index ∨ cls ≠ e.2.2 ∨
        S.intersects (S.buffer e.2.1 d) front = false ∨ e.1 ∈ m0) →
      X.1 ∉ m0 → X.1 ≠ index → cls = X.2.2 →
      S.intersects (S.buffer X.2.1 d) front = true →
      q.foldl (absorb_step S d index cls front) (tm, nn, m0)
        = (tm ++ [S.buffer X.2.1 d], nn ++ [S.buffer X.2.1 d], m0 ++ [X.1]) := by
  intro q
  induction q with
  | nil => intro tm nn m0 _ hX; cases hX
  | cons e tl ih =>
    intro tm nn m0 hnd hX hskip hXm hXi hXc hXint
    rw [List.foldl_cons]
    rcases List.mem_cons.mp hX with heq | hX'
    · subst heq
      have hstep : absorb_step S d index cls front (tm, nn, m0) X
          = (tm ++ [S.buffer X.2.1 d], nn ++ [S.buffer X.2.1 d], m0 ++ [X.1]) := by
        simp only [absorb_step]
        rw [if_neg (by
          rintro (h | h | h)
          · exact hXm h
          · exact hXi h
          · exact h hXc)]
        rw [if_pos hXint]
      rw [hstep]
      apply absorb_fold_skip
      intro e' he'
      have hne : e' ≠ X := fun hc => (List.nodup_cons.mp hnd).1 (hc ▸ he')
      rcases hskip e' (List.mem_cons_of_mem _ he') hne with h | h | h | h
      · exact Or.inl h
      · exact Or.inr (Or.inl h)
      · exact Or.inr (Or.inr (Or.inl h))
      · exact Or.inr (Or.inr (Or.inr (List.mem_append.mpr (Or.inl h))))
    · have hne : e ≠ X := fun hc => (List.nodup_cons.mp hnd).1 (hc ▸ hX')
      have hstep : absorb_step S d index cls front (tm, nn, m0) e
          = (tm, nn, m0) := by
        rcases hskip e (List.mem_cons_self e tl) hne with h | h | h | h
        · unfold absorb_step; rw [if_pos (Or.inr (Or.inl h))]
        · unfold absorb_step; rw [if_pos (Or.inr (Or.inr h))]
        · simp only [absorb_step]
          by_cases hin : e.1 ∈ m0 ∨ e.1 = index ∨ cls ≠ e.2.2
          · rw [if_pos hin]
          · rw [if_neg hin, if_neg (by simp [h])]
        · unfold absorb_step; rw [if_pos (Or.inl h)]
      rw [hstep]
      exact ih tm nn m0 (List.nodup_cons.mp hnd).2 hX'
        (fun e' he' hne' => hskip e' (List.mem_cons_of_mem _ he') hne')
        hXm hXi hXc hXint

/-- An enumerated list has no duplicate entries. -/
theorem enum_nodup {α : Type} (l : List α) : l.enum.Nodup := by
  have h : (l.enum.map Prod.fst).Nodup := by
    rw [List.enum_map_fst]
    exact List.nodup_range _
  exact h.of_map

/-- The inverse class dictionary of a catalog containing `c` yields an
index that looks back up to `c`. -/
theorem inverse_class_dict_get {classes : List String} {c : String}
    (h : c ∈ classes) :
    ∃ i, inverse_class_dict classes c = some i ∧ classes.get? i = some c := by
  have hmain : ∀ (is : List ℕ) (acc : Option ℕ),
      (∀ j, acc = some j → classes.get? j = some c) →
      (∀ j, is.foldl
          (fun acc i => if classes.get? i = some c then some i else acc) acc
          = some j → classes.get? j = some c) ∧
      ((∃ i ∈ is, classes.get? i = some c) ∨ acc.isSome →
        (is.foldl
          (fun acc i => if classes.get? i = some c then some i else acc)
          acc).isSome) := by
    intro is
    induction is with
    | nil =>
      intro acc hacc
      refine ⟨fun j hj => hacc j hj, ?_⟩
      rintro (⟨i, hi, _⟩ | hs)
      · cases hi
      · exact hs
    | cons i tl ih =>
      intro acc hacc
      rw [List.foldl_cons]
      by_cases hi : classes.get? i = some c
      · rw [if_pos hi]
        have := ih (some i) (fun j hj => by injection hj with hj; rw [← hj]; exact hi)
        exact ⟨this.1, fun _ => this.2 (Or.inr rfl)⟩
      · rw [if_neg hi]
        have := ih acc hacc
        refine ⟨this.1, ?_⟩
        rintro (⟨i', hi', hc'⟩ | hs)
        · rcases List.mem_cons.mp hi' with rfl | hi''
          · exact absurd hc' hi
          · exact this.2 (Or.inl ⟨i', hi'', hc'⟩)
        · exact this.2 (Or.inr hs)
  rcases List.mem_iff_get.mp h with ⟨i, hi⟩
  have hget : classes.get? (i : ℕ) = some c := by
    rw [List.get?_eq_get i.isLt]
    exact congrArg some hi
  have hin : (i : ℕ) ∈ List.range classes.length := List.mem_range.mpr i.isLt
  have hres := hmain (List.range classes.length) none (fun j hj => by cases hj)
  have hsome := hres.2 (Or.inl ⟨i, hin, hget⟩)
  rcases Option.isSome_iff_exists.mp hsome with ⟨j, hj⟩
  exact ⟨j, hj, hres.1 j hj⟩

/-- C9 (amended): given an image with exactly three same-class annotations
A, B, C where B's geometry meets A's geometry buffered by `max_dist` and
C's geometry meets B's geometry buffered by `max_dist` (consecutive
members within `max_dist`, which is what the spatial query with a
buffered frontier can discover), while A's and C's buffered geometries do
not intersect, one call to `merge_near_annotations` replaces all three by
a single annotation of that class whose geometry is the union of the
three buffered geometries shrunk back by `max_dist`, deleting the three
originals.  (`merge_buffered_adjacency_insufficient` shows the claim's
weaker premise — buffered geometries pairwise intersecting — does not
suffice.) -/
theorem merge_chain_collapses {G : Type} [DecidableEq G] (S : Shapely G)
    (st : ProjState G) (img : ℕ) (d : ℤ) (A B C : Annot G) (c : String)
    (himg : st.images.get? img = some [A, B, C]) (hd : 0 ≤ d)
    (hcA : A.path_class = some c) (hcB : B.path_class = some c)
    (hcC : C.path_class = some c) (hcat : c ∈ st.path_classes)
    (hAB : (S.pts B.roi ∩ S.pts (S.buffer A.roi d)).Nonempty)
    (hBC : (S.pts C.roi ∩ S.pts (S.buffer B.roi d)).Nonempty)
    (hAC : S.pts (S.buffer A.roi d) ∩ S.pts (S.buffer C.roi d) = ∅) :
    ∃ st', merge_near_annotations S st img d = some st' ∧
      st'.images.get? img = some
        [⟨S.buffer (S.unionG [S.buffer A.roi d, S.buffer B.roi d,
            S.buffer C.roi d]) (-d), some c⟩] := by
  obtain ⟨i, hinv, hget⟩ := inverse_class_dict_get hcat
  -- boolean adjacency facts the loop tests
  have hABint : S.intersects (S.buffer B.roi d) (S.buffer A.roi d) = true := by
    rw [S.intersects_iff]
    rcases hAB with ⟨p, hp⟩
    rcases Finset.mem_inter.mp hp with ⟨h1, h2⟩
    exact ⟨p, Finset.mem_inter.mpr ⟨S.buffer_incl B.roi d hd h1, h2⟩⟩
  have hBCint : S.intersects (S.buffer C.roi d) (S.buffer B.roi d) = true := by
    rw [S.intersects_iff]
    rcases hBC with ⟨p, hp⟩
    rcases Finset.mem_inter.mp hp with ⟨h1, h2⟩
    exact ⟨p, Finset.mem_inter.mpr ⟨S.buffer_incl C.roi d hd h1, h2⟩⟩
  have hACint : S.intersects (S.buffer C.roi d) (S.buffer A.roi d) = false := by
    cases hb : S.intersects (S.buffer C.roi d) (S.buffer A.roi d) with
    | false => rfl
    | true =>
      exfalso
      have hne := (S.intersects_iff _ _).mp hb
      rw [Finset.inter_comm, hAC] at hne
      exact absurd hne (by simp)
  have hEInodup : ([((0:ℕ), (A.roi, c)), (1, (B.roi, c)), (2, (C.roi, c))] :
      List (ℕ × (G × String))).Nodup := by simp
  -- first frontier pass: absorb B from the query over buffered A
  have hfold1 : (S.query [((0:ℕ), (A.roi, c)), (1, (B.roi, c)), (2, (C.roi, c))]
        (S.buffer A.roi d)).foldl
      (absorb_step S d 0 c (S.buffer A.roi d)) ([S.buffer A.roi d], [], [])
      = ([S.buffer A.roi d, S.buffer B.roi d], [S.buffer B.roi d], [1]) := by
    have h := absorb_fold_one S d 0 c (S.buffer A.roi d) (1, (B.roi, c))
      (S.query [((0:ℕ), (A.roi, c)), (1, (B.roi, c)), (2, (C.roi, c))]
        (S.buffer A.roi d))
      [S.buffer A.roi d] [] []
      ((S.query_sublist _ _).nodup hEInodup)
      (S.query_complete _ _ _ (by simp) hAB)
      (by
        intro e he hne
        have heEI := (S.query_sublist _ _).subset he
        rcases List.mem_cons.mp heEI with rfl | heEI
        · exact Or.inl rfl
        rcases List.mem_cons.mp heEI with rfl | heEI
        · exact absurd rfl hne
        rcases List.mem_cons.mp heEI with rfl | heEI
        · exact Or.inr (Or.inr (Or.inl hACint))
        · cases heEI)
      (by simp) (by simp) rfl hABint
    simpa using h
  -- second frontier pass: absorb C from the query over buffered B
  have hfold2 : (S.query [((0:ℕ), (A.roi, c)), (1, (B.roi, c)), (2, (C.roi, c))]
        (S.buffer B.roi d)).foldl
      (absorb_step S d 0 c (S.buffer B.roi d))
      ([S.buffer A.roi d, S.buffer B.roi d], [], [1])
      = ([S.buffer A.roi d, S.buffer B.roi d, S.buffer C.roi d],
         [S.buffer C.roi d], [1, 2]) := by
    have h := absorb_fold_one S d 0 c (S.buffer B.roi d) (2, (C.roi, c))
      (S.query [((0:ℕ), (A.roi, c)), (1, (B.roi, c)), (2, (C.roi, c))]
        (S.buffer B.roi d))
      [S.buffer A.roi d, S.buffer B.roi d] [] [1]
      ((S.query_sublist _ _).nodup hEInodup)
      (S.query_complete _ _ _ (by simp) hBC)
      (by
        intro e he hne
        have heEI := (S.query_sublist _ _).subset he
        rcases List.mem_cons.mp heEI with rfl | heEI
        · exact Or.inl rfl
        rcases List.mem_cons.mp heEI with rfl | heEI
        · exact Or.inr (Or.inr (Or.inr (by simp)))
        rcases List.mem_cons.mp heEI with rfl | heEI
        · exact absurd rfl hne
        · cases heEI)
      (by simp) (by simp) rfl hBCint
    simpa using h
  -- third frontier pass: everything is the seed or already merged
  have hfold3 : (S.query [((0:ℕ), (A.roi, c)), (1, (B.roi, c)), (2, (C.roi, c))]
        (S.buffer C.roi d)).foldl
      (absorb_step S d 0 c (S.buffer C.roi d))
      ([S.buffer A.roi d, S.buffer B.roi d, S.buffer C.roi d], [], [1, 2])
      = ([S.buffer A.roi d, S.buffer B.roi d, S.buffer C.roi d], [], [1, 2]) := by
    apply absorb_fold_skip
    intro e he
    have heEI := (S.query_sublist _ _).subset he
    rcases List.mem_cons.mp heEI with rfl | heEI
    · exact Or.inl rfl
    rcases List.mem_cons.mp heEI with rfl | heEI
    · exact Or.inr (Or.inr (Or.inr (by simp)))
    rcases List.mem_cons.mp heEI with rfl | heEI
    · exact Or.inr (Or.inr (Or.inr (by simp)))
    · cases heEI
  -- the whole frontier loop for the seed A
  have hbfs : bfs S [((0:ℕ), (A.roi, c)), (1, (B.roi, c)), (2, (C.roi, c))] d 0 c
      ([((0:ℕ), (A.roi, c)), (1, (B.roi, c)), (2, (C.roi, c))].length + 1)
      [S.buffer A.roi d] [S.buffer A.roi d] []
      = ([S.buffer A.roi d, S.buffer B.roi d, S.buffer C.roi d], [1, 2]) := by
    show bfs S [((0:ℕ), (A.roi, c)), (1, (B.roi, c)), (2, (C.roi, c))] d 0 c
      (3 + 1) [S.buffer A.roi d] [S.buffer A.roi d] [] = _
    rw [bfs_cons, hfold1]
    show bfs S [((0:ℕ), (A.roi, c)), (1, (B.roi, c)), (2, (C.roi, c))] d 0 c
      (2 + 1) [S.buffer B.roi d]
      [S.buffer A.roi d, S.buffer B.roi d] [1] = _
    rw [bfs_cons, hfold2]
    show bfs S [((0:ℕ), (A.roi, c)), (1, (B.roi, c)), (2, (C.roi, c))] d 0 c
      (1 + 1) [S.buffer C.roi d]
      [S.buffer A.roi d, S.buffer B.roi d, S.buffer C.roi d] [1, 2] = _
    rw [bfs_cons, hfold3]
    show bfs S [((0:ℕ), (A.roi, c)), (1, (B.roi, c)), (2, (C.roi, c))] d 0 c
      1 [] [S.buffer A.roi d, S.buffer B.roi d, S.buffer C.roi d] [1, 2] = _
    exact bfs_nil S _ d 0 c 1 _ _
  -- the three outer-loop steps
  have hstep0 : merge_step S st.path_classes
      [((0:ℕ), (A.roi, c)), (1, (B.roi, c)), (2, (C.roi, c))] d
      ([], [A, B, C]) ((0:ℕ), A)
      = some ([1, 2],
          [B, C, ⟨S.buffer (S.unionG [S.buffer A.roi d, S.buffer B.roi d,
              S.buffer C.roi d]) (-d), some c⟩]) := by
    simp only [merge_step, hcA, Option.some_bind]
    rw [if_neg (by simp)]
    rw [hbfs]
    rw [if_pos (by simp)]
    rw [hinv]
    simp only [Option.some_bind]
    rw [hget]
    simp only [Option.map_some']
    rw [show ([A, B, C] ++ [(⟨S.buffer (S.unionG [S.buffer A.roi d,
        S.buffer B.roi d, S.buffer C.roi d]) (-d), some c⟩ : Annot G)])
        = A :: [B, C, ⟨S.buffer (S.unionG [S.buffer A.roi d, S.buffer B.roi d,
            S.buffer C.roi d]) (-d), some c⟩] from rfl]
    rw [List.erase_cons_head]
  have hstep1 : merge_step S st.path_classes
      [((0:ℕ), (A.roi, c)), (1, (B.roi, c)), (2, (C.roi, c))] d
      ([1, 2],
        [B, C, ⟨S.buffer (S.unionG [S.buffer A.roi d, S.buffer B.roi d,
            S.buffer C.roi d]) (-d), some c⟩]) ((1:ℕ), B)
      = some ([1, 2],
          [C, ⟨S.buffer (S.unionG [S.buffer A.roi d, S.buffer B.roi d,
              S.buffer C.roi d]) (-d), some c⟩]) := by
    simp only [merge_step]
    rw [if_pos (by simp)]
    rw [List.erase_cons_head]
  have hstep2 : merge_step S st.path_classes
      [((0:ℕ), (A.roi, c)), (1, (B.roi, c)), (2, (C.roi, c))] d
      ([1, 2],
        [C, ⟨S.buffer (S.unionG [S.buffer A.roi d, S.buffer B.roi d,
            S.buffer C.roi d]) (-d), some c⟩]) ((2:ℕ), C)
      = some ([1, 2],
          [⟨S.buffer (S.unionG [S.buffer A.roi d, S.buffer B.roi d,
              S.buffer C.roi d]) (-d), some c⟩]) := by
    simp only [merge_step]
    rw [if_pos (by simp)]
    rw [List.erase_cons_head]
  have hmfold : ([((0:ℕ), A), (1, B), (2, C)] : List (ℕ × Annot G)).foldlM
      (merge_step S st.path_classes
        [((0:ℕ), (A.roi, c)), (1, (B.roi, c)), (2, (C.roi, c))] d)
      ([], [A, B, C])
      = some ([1, 2],
          [⟨S.buffer (S.unionG [S.buffer A.roi d, S.buffer B.roi d,
              S.buffer C.roi d]) (-d), some c⟩]) := by
    rw [List.foldlM_cons, hstep0]
    simp only [Option.bind_eq_bind, Option.some_bind]
    rw [List.foldlM_cons, hstep1]
    simp only [Option.bind_eq_bind, Option.some_bind]
    rw [List.foldlM_cons, hstep2]
    simp only [Option.bind_eq_bind, Option.some_bind, List.foldlM_nil]
    rfl
  -- the explicit index rebuild
  have hupd : update_img_annot_dict st img = some { st with
      img_annot_dict := setCache st.img_annot_dict img
        [(A.roi, c), (B.roi, c), (C.roi, c)] } := by
    unfold update_img_annot_dict
    rw [himg]
    simp only [Option.some_bind]
    rw [show ([A, B, C] : List (Annot G)).mapM
        (fun a => a.path_class.map (fun cc => (a.roi, cc)))
        = some [(A.roi, c), (B.roi, c), (C.roi, c)] by
      simp [List.mapM_cons, List.mapM_nil, List.mapM.loop, hcA, hcB, hcC]]
    simp only [Option.some_bind]
    rw [if_neg (by simp)]
  have hlt : img < st.images.length := (List.get?_eq_some.mp himg).1
  refine ⟨⟨st.images.set img
      [⟨S.buffer (S.unionG [S.buffer A.roi d, S.buffer B.roi d,
          S.buffer C.roi d]) (-d), some c⟩],
      st.path_classes,
      setCache st.img_annot_dict img [(A.roi, c), (B.roi, c), (C.roi, c)]⟩,
    ?_, ?_⟩
  · unfold merge_near_annotations
    rw [himg]
    simp only [Option.some_bind]
    rw [hupd]
    simp only [Option.some_bind]
    rw [lookupCache_set]
    simp only [Option.some_bind]
    rw [show ([A, B, C] : List (Annot G)).enum
        = [((0:ℕ), A), (1, B), (2, C)] from rfl]
    rw [show ([(A.roi, c), (B.roi, c), (C.roi, c)] : List (G × String)).enum
        = [((0:ℕ), (A.roi, c)), (1, (B.roi, c)), (2, (C.roi, c))] from rfl]
    rw [hmfold]
    rfl
  · show (st.images.set img _).get? img = _
    rw [List.get?_set_eq_of_lt _ hlt]

/-- Witness for `merge_chain_collapses`: the concrete chain `aNear`,
`bNear`, `cNear` with `max_dist = 1` satisfies the premises and collapses
to one merged annotation. -/
theorem merge_chain_collapses_witness :
    (CShapely.pts bNear.roi
        ∩ CShapely.pts (CShapely.buffer aNear.roi 1)).Nonempty ∧
    (CShapely.pts cNear.roi
        ∩ CShapely.pts (CShapely.buffer bNear.roi 1)).Nonempty ∧
    (CShapely.pts (CShapely.buffer aNear.roi 1)
        ∩ CShapely.pts (CShapely.buffer cNear.roi 1)) = ∅ ∧
    ∃ st', merge_near_annotations CShapely fixNearSt 0 1 = some st' ∧
      st'.images.get? 0 = some
        [⟨CShapely.buffer (CShapely.unionG [CShapely.buffer aNear.roi 1,
            CShapely.buffer bNear.roi 1, CShapely.buffer cNear.roi 1]) (-1),
          some "c"⟩] :=
  ⟨by decide, by decide, by decide,
    merge_chain_collapses CShapely fixNearSt 0 1 aNear bNear cNear "c"
      rfl (by decide) rfl rfl rfl (by decide)
      (by decide) (by decide) (by decide)⟩

end MOTH
